import Mathlib

/-!
Verification of the segmentation and consolidation pipeline of the
Write-book-Agent repository (directory src/local_llm_xian_ni/src/).

The Python sources embedded here are:
  * merge.py    : alias resolution (_merge_alias_map, _canon, _norm_name),
                  relation deduplication and evidence aggregation (main),
  * chunker.py  : _chunk_text and the chunk-emission loop of main,
  * extract.py  : _existing_chunk_ids and the resumable extraction loop of main,
  * llm_client.py : OpenAILLM._safe_json.

Python strings are modelled as lists of characters (Str), Python dicts used
as keyed registries are modelled as association lists with first-match
lookup, and Python floats (only used for relation confidences, which are
merged with max) are modelled as rationals.
-/

namespace WriteBook

/-- Python strings, modelled as lists of characters. -/
abbrev Str := List Char

/-- The whitespace characters stripped by Python's str.strip(), including the
full-width space U+3000 (Python strips every Unicode whitespace character;
the pipeline only ever relies on these). -/
def isPySpace (c : Char) : Bool :=
  c = ' ' || c = '\t' || c = '\n' || c = '\r' || c = '\x0b' || c = '\x0c' || c = '　'

/-- Python s.strip(): remove leading and trailing whitespace. -/
def pyStrip (s : Str) : Str :=
  (s.dropWhile isPySpace).rdropWhile isPySpace

/-- The character substitution performed by s.replace("　", " ") in
_norm_name (merge.py line 30); the replaced pattern is a single char. -/
def fullwidthToSpace (c : Char) : Char :=
  if c = '　' then ' ' else c

/-- merge.py _norm_name (lines 27-31): strip, replace full-width spaces by
ASCII spaces, strip again. -/
def normName (s : Str) : Str :=
  pyStrip ((pyStrip s).map fullwidthToSpace)

/-- Lookup in a Python dict modelled as an association list (d.get(k)). -/
def dictGet? {κ ν : Type} [DecidableEq κ] : List (κ × ν) → κ → Option ν
  | [], _ => none
  | (k, v) :: rest, key => if k = key then some v else dictGet? rest key

/-- d.setdefault-style guarded insertion: `if k not in d: d[k] = v`.
New bindings go to the end, matching dict insertion order. -/
def dictInsertIfAbsent {κ ν : Type} [DecidableEq κ]
    (d : List (κ × ν)) (k : κ) (v : ν) : List (κ × ν) :=
  if (dictGet? d k).isSome then d else d ++ [(k, v)]

/-- In-place mutation of the value stored at key k (Python mutates the dict
value object); keys and their order are unchanged. -/
def dictUpdate {κ ν : Type} [DecidableEq κ] :
    List (κ × ν) → κ → (ν → ν) → List (κ × ν)
  | [], _, _ => []
  | (k, v) :: rest, key, f =>
    if k = key then (k, f v) :: rest else (k, v) :: dictUpdate rest key f

/-! ## Alias Resolver (merge.py lines 34-59) -/

/-- A raw entity mention as consumed by _merge_alias_map: the "name" field
and the "aliases" list (other fields are irrelevant to alias resolution). -/
structure RawEntity where
  name : Str
  aliases : List Str
deriving DecidableEq

/-- The alias map: observed name string -> canonical name string. -/
abbrev AliasMap := List (Str × Str)

/-- One iteration of the _merge_alias_map loop (merge.py lines 42-53):
register the normalized primary name as its own canonical entry if new,
then map each normalized, not-yet-seen alias to that primary name. -/
def addEntity (amap : AliasMap) (e : RawEntity) : AliasMap :=
  let n := normName e.name
  if n = [] then amap
  else
    let amap := dictInsertIfAbsent amap n n
    e.aliases.foldl
      (fun m a0 =>
        let a := normName a0
        if a = [] then m else dictInsertIfAbsent m a n)
      amap

/-- merge.py _merge_alias_map (lines 34-54). -/
def mergeAliasMap (entities : List RawEntity) : AliasMap :=
  entities.foldl addEntity []

/-- merge.py _canon (lines 57-59): amap.get(_norm_name(name), _norm_name(name)). -/
def canon (amap : AliasMap) (name : Str) : Str :=
  let n := normName name
  (dictGet? amap n).getD n

/-! ## Chunk Splitter (chunker.py lines 69-80) -/

/-- One window emitted by _chunk_text:
{"start_char": i, "end_char": j, "text": body[i:j]}. -/
structure ChunkRec where
  start_char : Nat
  end_char : Nat
  text : Str
deriving DecidableEq, Inhabited

/-- The chunk dict built at chunker.py line 78, with j = min(len(body), i + max_chars). -/
def mkChunk (body : Str) (i maxChars : Nat) : ChunkRec :=
  { start_char := i
    end_char := min body.length (i + maxChars)
    text := (body.drop i).take (min body.length (i + maxChars) - i) }

/-- The while-loop of _chunk_text (chunker.py lines 76-79): emit a window at
i, then advance i by step, while i < len(body).  The loop is total because
step >= 1; it is phrased with a fuel argument that decreases by one per
iteration, and a fuel of len(body) - i suffices since i grows by step >= 1
each round (see chunkLoop_getElem? below). -/
def chunkLoop (fuel : Nat) (body : Str) (maxChars step i : Nat) : List ChunkRec :=
  match fuel with
  | 0 => []
  | fuel + 1 =>
    if i < body.length then
      mkChunk body i maxChars :: chunkLoop fuel body maxChars step (i + step)
    else []

/-- chunker.py _chunk_text (lines 69-80): strip the body; an empty body
yields no chunks; otherwise slide a window of max_chars with
step = max(1, max_chars - overlap). -/
def chunkText (body0 : Str) (maxChars overlap : Nat) : List ChunkRec :=
  let body := pyStrip body0
  if body = [] then []
  else
    let step := max 1 (maxChars - overlap)
    chunkLoop body.length body maxChars step 0

/-- Decidable membership test for chunk coverage: does some emitted window
contain position x (start_char <= x < end_char)? -/
def coveredB (ws : List ChunkRec) (x : Nat) : Bool :=
  ws.any (fun w => decide (w.start_char ≤ x) && decide (x < w.end_char))

/-! ## Chunker main emission loop (chunker.py lines 128-155) -/

/-- One line of out_lines (chunker.py lines 136-148).  chunk_id is kept as
the counter value; the source formats it as the zero-padded decimal string
f"{chunk_id:06d}", an injective, order-preserving encoding.  The constant
volume / volume_title fields of a run are omitted. -/
structure OutLine where
  chunk_id : Nat
  chapter_index : Nat
  chapter_title : Str
  part_index : Nat
  start_char : Nat
  end_char : Nat
  text : Str
deriving DecidableEq

/-- The mutable state of the emission loop: out_lines and the chunk_id
counter. -/
structure EmitState where
  out : List OutLine
  cid : Nat
deriving DecidableEq

/-- The break condition `args.max_chunks and len(out_lines) >= args.max_chunks`
(chunker.py lines 151 and 154); max_chunks = 0 disables the cap. -/
def stopEmit (maxChunks : Nat) (st : EmitState) : Bool :=
  decide (maxChunks ≠ 0) && decide (maxChunks ≤ st.out.length)

/-- The out_lines entry appended at chunker.py lines 136-148. -/
def mkOutLine (cid ci : Nat) (title : Str) (k : Nat) (c : ChunkRec) : OutLine :=
  { chunk_id := cid, chapter_index := ci, chapter_title := title,
    part_index := k, start_char := c.start_char, end_char := c.end_char,
    text := c.text }

/-- The inner loop `for k, c in enumerate(chunks, start=1)` (chunker.py
lines 135-152): append a line, bump the counter, break once the chunk cap
is reached. -/
def emitChunks (maxChunks ci : Nat) (title : Str) :
    List ChunkRec → Nat → EmitState → EmitState
  | [], _, st => st
  | c :: rest, k, st =>
    let st' : EmitState := ⟨st.out ++ [mkOutLine st.cid ci title k c], st.cid + 1⟩
    if stopEmit maxChunks st' then st' else emitChunks maxChunks ci title rest (k + 1) st'

/-- The outer loop `for ci, (ch_title, s, e) in enumerate(chapter_spans, start=1)`
(chunker.py lines 131-155): slice and strip the chapter body, chunk it, emit,
and break once the chunk cap is reached. -/
def emitChapters (maxChars overlap maxChunks : Nat) (text : Str) :
    List (Str × Nat × Nat) → Nat → EmitState → EmitState
  | [], _, st => st
  | (title, s, e) :: rest, ci, st =>
    let body := pyStrip ((text.drop s).take (e - s))
    let chunks := chunkText body maxChars overlap
    let st' := emitChunks maxChunks ci title chunks 1 st
    if stopEmit maxChunks st' then st'
    else emitChapters maxChars overlap maxChunks text rest (ci + 1) st'

/-- chunker.py main, lines 121-155: apply the optional chapter cap to the
chapter spans found by the Segmenter, then run the emission loop starting
from chunk_id = 0.  maxChapters = 0 and maxChunks = 0 disable the caps. -/
def chunkerMain (text : Str) (spans : List (Str × Nat × Nat))
    (maxChars overlap maxChapters maxChunks : Nat) : List OutLine :=
  let spans := if maxChapters > 0 then spans.take maxChapters else spans
  (emitChapters maxChars overlap maxChunks text spans 1 ⟨[], 0⟩).out

/-- The (chapter_index, part_index) coordinates of the emitted lines. -/
def pairsOf (out : List OutLine) : List (Nat × Nat) :=
  out.map (fun r => (r.chapter_index, r.part_index))

/-- Strict lexicographic order on (chapter_index, part_index). -/
def ltPair (a b : Nat × Nat) : Prop :=
  a.1 < b.1 ∨ (a.1 = b.1 ∧ a.2 < b.2)

instance (a b : Nat × Nat) : Decidable (ltPair a b) := by
  unfold ltPair; infer_instance

/-! ## Relation Deduplicator and Evidence Aggregator (merge.py lines 140-194) -/

/-- A raw relation mention as read from a chunk's extraction payload.
Confidences are Python floats, modelled as rationals; a missing or
non-numeric confidence field is modelled as none (the source defaults it to
0.5 through rel.get / the float() try-except, merge.py lines 150-154).
The evidence span endpoints are carried verbatim. -/
structure RawRel where
  rfrom : Str
  rto : Str
  rtype : Str
  rstatus : Str
  notes : Str
  quote : Str
  confidence : Option ℚ
  spanStart : Option Int
  spanEnd : Option Int
deriving DecidableEq

/-- The per-row metadata attached to a mention (merge.py lines 86, 171,
180-181): the originating chunk_id and chapter title. -/
structure RelMeta where
  chunk_id : Str
  chapter_title : Str
deriving DecidableEq

/-- A mention paired with its row metadata (the (meta, rel) tuples of
rel_rows, merge.py line 91). -/
abbrev Mention := RelMeta × RawRel

/-- The canonical relation key (resolve(from), resolve(to), norm(type),
norm(status)) of merge.py line 161. -/
abbrev RelKey := Str × Str × Str × Str

/-- The evidence object built at merge.py lines 179-184: quote truncated to
120 characters, span carried verbatim. -/
structure EvObj where
  chunk_id : Str
  chapter_title : Str
  quote : Str
  spanStart : Option Int
  spanEnd : Option Int
deriving DecidableEq

/-- A canonical Relation record (the dict built at merge.py lines 164-173). -/
structure RelItem where
  rfrom : Str
  rto : Str
  rtype : Str
  rstatus : Str
  confidence : ℚ
  notes : Str
  first_seen_chunk : Str
  evidence : List EvObj
deriving DecidableEq

/-- One line of the append-only evidence log (merge.py line 186):
{"key": list(key), **ev_obj}. -/
structure EvLogEntry where
  key : RelKey
  ev : EvObj
deriving DecidableEq

/-- Parsed confidence: rel.get("confidence", 0.5) with non-numeric values
replaced by 0.5 (merge.py lines 150-154). -/
def confOf (m : Mention) : ℚ :=
  m.2.confidence.getD (1 / 2)

/-- The normalized quote string of a mention (merge.py line 157). -/
def quoteOf (m : Mention) : Str :=
  normName m.2.quote

/-- The canonical relation key of a mention (merge.py lines 146-149, 161). -/
def keyOf (amap : AliasMap) (m : Mention) : RelKey :=
  (canon amap m.2.rfrom, canon amap m.2.rto, normName m.2.rtype, normName m.2.rstatus)

/-- The evidence object of a mention (merge.py lines 179-184). -/
def evObjOf (m : Mention) : EvObj :=
  { chunk_id := m.1.chunk_id
    chapter_title := m.1.chapter_title
    quote := (quoteOf m).take 120
    spanStart := m.2.spanStart
    spanEnd := m.2.spanEnd }

/-- The fresh Relation item created at merge.py lines 164-173 when a key is
seen for the first time. -/
def newItemOf (amap : AliasMap) (m : Mention) : RelItem :=
  { rfrom := (keyOf amap m).1, rto := (keyOf amap m).2.1,
    rtype := (keyOf amap m).2.2.1, rstatus := (keyOf amap m).2.2.2,
    confidence := confOf m, notes := normName m.2.notes,
    first_seen_chunk := m.1.chunk_id, evidence := [] }

/-- One iteration of the dedupe loop (merge.py lines 145-186) over the state
(rel_key_map, evidence log lines).  On a fresh key (item is None) a new item
is created (lines 163-174); on a collision only the confidence is raised to
the max (line 176).  If the normalized quote is non-empty the evidence
object is appended to the item and one line is written to the evidence log
(lines 178-186). -/
def mergeStep (amap : AliasMap) (st : List (RelKey × RelItem) × List EvLogEntry)
    (m : Mention) : List (RelKey × RelItem) × List EvLogEntry :=
  let key := keyOf amap m
  let rmap :=
    if dictGet? st.1 key = none then st.1 ++ [(key, newItemOf amap m)]
    else dictUpdate st.1 key (fun it => { it with confidence := max it.confidence (confOf m) })
  if quoteOf m = [] then (rmap, st.2)
  else
    (dictUpdate rmap key (fun it => { it with evidence := it.evidence ++ [evObjOf m] }),
     st.2 ++ [{ key := key, ev := evObjOf m }])

/-- The full dedupe pass of merge.py main (lines 140-188), starting from an
empty rel_key_map and a freshly opened evidence log. -/
def mergeRels (amap : AliasMap) (ms : List Mention) :
    List (RelKey × RelItem) × List EvLogEntry :=
  ms.foldl (mergeStep amap) ([], [])

/-- The mentions contributing to one canonical key, in input order. -/
def keyMentions (amap : AliasMap) (k : RelKey) (ms : List Mention) : List Mention :=
  ms.filter (fun m => decide (keyOf amap m = k))

/-- Closed form of the Relation record accumulated for a key whose
contributing mentions are m1 :: rest: endpoints and type/status from the
key, confidence the max over all contributing confidences, notes and
first_seen_chunk from the first mention, evidence one object per mention
with a non-empty quote, in order. -/
def itemOf (k : RelKey) (m1 : Mention) (rest : List Mention) : RelItem :=
  { rfrom := k.1, rto := k.2.1, rtype := k.2.2.1, rstatus := k.2.2.2,
    confidence := rest.foldl (fun c m => max c (confOf m)) (confOf m1),
    notes := normName m1.2.notes,
    first_seen_chunk := m1.1.chunk_id,
    evidence := ((m1 :: rest).filter (fun m => decide (quoteOf m ≠ []))).map evObjOf }

/-- The per-Relation evidence cap applied when the relations list is
written out: item["evidence"] = item["evidence"][:12] (merge.py line 193). -/
def capRelationEvidence (it : RelItem) : RelItem :=
  { it with evidence := it.evidence.take 12 }

/-! ## JSON values and the collaborator boundary (llm_client.py lines 38-66) -/

/-- JSON values as returned by the extraction collaborator.  Numbers are
abstracted as integers; nothing in the verified code inspects them. -/
inductive JVal where
  | jnull : JVal
  | jbool : Bool → JVal
  | jnum : Int → JVal
  | jstr : Str → JVal
  | jarr : List JVal → JVal
  | jobj : List (Str × JVal) → JVal

/-- isinstance(obj, dict). -/
def isObjB : JVal → Bool
  | .jobj _ => true
  | _ => false

/-- Does a JSON object carry the given key? -/
def hasKeyB (k : Str) : JVal → Bool
  | .jobj kvs => kvs.any (fun p => decide (p.1 = k))
  | _ => false

/-- Python s.rfind(c) as an optional index: the index of the last
occurrence of c in s, if any. -/
def rfindIdx? (s : Str) (c : Char) : Option Nat :=
  (s.reverse.findIdx? (fun d => d = c)).map (fun i => s.length - 1 - i)

/-- The brace-block extraction of _safe_json (llm_client.py lines 56-59):
start = text.find("{"), end = text.rfind("}"); if 0 <= start < end, the
candidate slice text[start : end + 1], otherwise nothing. -/
def braceCandidate (text : Str) : Option Str :=
  match text.findIdx? (fun d => d = Char.ofNat 123), rfindIdx? text (Char.ofNat 125) with
  | some st, some ed =>
    if st < ed then some ((text.drop st).take (ed + 1 - st)) else none
  | _, _ => none

/-- The result handed back when a parse attempt succeeds (llm_client.py
lines 50-51 and 61-62): a dict is passed through, any other value is
wrapped as {"_raw": obj}. -/
def jsonOrRaw (v : JVal) : JVal :=
  if isObjB v then v else .jobj [("_raw".toList, v)]

/-- llm_client.py OpenAILLM._safe_json (lines 38-66), parameterized by the
json.loads parser: strip; empty input yields an _error object; a strict
parse that succeeds is passed through jsonOrRaw; otherwise the first-to-last
brace block is tried the same way; if that also fails the result is a
structured _error object carrying the first 2000 characters of the text. -/
def safeJson (parse : Str → Option JVal) (text0 : Str) : JVal :=
  let text := pyStrip text0
  if text = [] then .jobj [("_error".toList, .jstr "empty_response".toList)]
  else
    ((parse text).map jsonOrRaw).getD
      (((braceCandidate text).map (fun cand =>
          ((parse cand).map jsonOrRaw).getD
            (.jobj [("_error".toList, .jstr "invalid_json".toList),
                    ("_text".toList, .jstr (text.take 2000))]))).getD
        (.jobj [("_error".toList, .jstr "no_json_object".toList),
                ("_text".toList, .jstr (text.take 2000))]))

/-! ## Resumable extraction (extract.py lines 59-72 and 90-127) -/

/-- One row of the chunk file as consumed by extract.py main: chunk_id and
text are required, the remaining metadata is read with dict.get. -/
structure ChunkRow where
  chunk_id : Str
  chapter_index : Option Nat
  chapter_title : Str
  part_index : Option Nat
  start_char : Option Nat
  end_char : Option Nat
  text : Str

/-- One record of the extraction log (extract.py lines 116-124). -/
structure ExtRecord where
  chunk_id : Str
  chapter_index : Option Nat
  chapter_title : Str
  part_index : Option Nat
  start_char : Option Nat
  end_char : Option Nat
  extraction : JVal

/-- extract.py _existing_chunk_ids (lines 59-72): the chunk_ids already
recorded in the output log (membership in the Python set is membership in
this list).  A record contributes its chunk_id only when that id is truthy
— i.e. non-empty — mirroring the `if cid:` guard at line 68. -/
def existingChunkIds (log : List ExtRecord) : List Str :=
  (log.filter (fun r => decide (r.chunk_id ≠ []))).map (fun r => r.chunk_id)

/-- The record appended for one processed chunk (extract.py lines 116-126),
with the collaborator call llm.respond_json abstracted as an oracle. -/
def extractRecord (oracle : ChunkRow → JVal) (r : ChunkRow) : ExtRecord :=
  { chunk_id := r.chunk_id, chapter_index := r.chapter_index,
    chapter_title := r.chapter_title, part_index := r.part_index,
    start_char := r.start_char, end_char := r.end_char,
    extraction := oracle r }

/-- The extraction loop (extract.py lines 96-127): for each chunk row, skip
it if its chunk_id is in the done set computed before the loop, otherwise
append one record to the log. -/
def extractLoop (done : List Str) (oracle : ChunkRow → JVal)
    (acc : List ExtRecord) : List ChunkRow → List ExtRecord
  | [] => acc
  | r :: rest =>
    if r.chunk_id ∈ done then extractLoop done oracle acc rest
    else extractLoop done oracle (acc ++ [extractRecord oracle r]) rest

/-- One run of extract.py main (lines 90-127) over an existing log. -/
def runExtract (oracle : ChunkRow → JVal) (log : List ExtRecord)
    (rows : List ChunkRow) : List ExtRecord :=
  extractLoop (existingChunkIds log) oracle log rows

/-! ## Lemmas about Python whitespace stripping and name normalization -/

theorem dropWhile_head_false {p : Char → Bool} :
    ∀ {l : Str} {c : Char} {rest : Str}, l.dropWhile p = c :: rest → p c = false := by
  intro l
  induction l with
  | nil => intro c rest h; simp [List.dropWhile] at h
  | cons a t ih =>
    intro c rest h
    rw [List.dropWhile_cons] at h
    by_cases hp : p a
    · simp [hp] at h
      exact ih h
    · simp [hp] at h
      rw [← h.1]
      simpa using hp

theorem pyStrip_idem (s : Str) : pyStrip (pyStrip s) = pyStrip s := by
  unfold pyStrip
  set A := s.dropWhile isPySpace with hA
  have hdrop : (A.rdropWhile isPySpace).dropWhile isPySpace = A.rdropWhile isPySpace := by
    cases hR : A.rdropWhile isPySpace with
    | nil => rfl
    | cons c R' =>
      obtain ⟨t, ht⟩ := List.rdropWhile_prefix isPySpace (l := A)
      rw [hR] at ht
      have hAc : s.dropWhile isPySpace = c :: (R' ++ t) := by
        rw [← hA, ← ht]; simp
      have hc : isPySpace c = false := dropWhile_head_false hAc
      simp [List.dropWhile_cons, hc]
  rw [hdrop, List.rdropWhile_idempotent]

theorem mem_pyStrip {c : Char} {s : Str} (h : c ∈ pyStrip s) : c ∈ s := by
  unfold pyStrip at h
  obtain ⟨t, ht⟩ := List.rdropWhile_prefix isPySpace (l := s.dropWhile isPySpace)
  obtain ⟨u, hu⟩ := List.dropWhile_suffix (l := s) isPySpace
  have h1 : c ∈ s.dropWhile isPySpace := by
    rw [← ht]; exact List.mem_append_left _ h
  rw [← hu]
  exact List.mem_append_right _ h1

theorem map_fixed_eq_self {f : Char → Char} :
    ∀ {l : Str}, (∀ c ∈ l, f c = c) → l.map f = l
  | [], _ => rfl
  | c :: t, h => by
    simp only [List.map_cons]
    rw [h c (by simp), map_fixed_eq_self (fun d hd => h d (by simp [hd]))]

theorem fullwidthToSpace_idem (d : Char) :
    fullwidthToSpace (fullwidthToSpace d) = fullwidthToSpace d := by
  by_cases h : d = '　'
  · subst h; decide
  · unfold fullwidthToSpace; simp [h]

theorem normName_idem (s : Str) : normName (normName s) = normName s := by
  have hstrip : pyStrip (normName s) = normName s := by
    unfold normName; exact pyStrip_idem _
  have hmap : (normName s).map fullwidthToSpace = normName s := by
    apply map_fixed_eq_self
    intro c hc
    obtain ⟨d, _, hd⟩ := List.mem_map.mp (mem_pyStrip hc)
    rw [← hd]
    exact fullwidthToSpace_idem d
  show pyStrip ((pyStrip (normName s)).map fullwidthToSpace) = normName s
  rw [hstrip, hmap, hstrip]

/-! ## Lemmas about the association-list dict model -/

theorem dictGet?_nil {κ ν : Type} [DecidableEq κ] (k : κ) :
    dictGet? ([] : List (κ × ν)) k = none := rfl

theorem dictGet?_cons {κ ν : Type} [DecidableEq κ] (k0 : κ) (v0 : ν) (d : List (κ × ν)) (k : κ) :
    dictGet? ((k0, v0) :: d) k = if k0 = k then some v0 else dictGet? d k := rfl

theorem dictUpdate_cons {κ ν : Type} [DecidableEq κ] (k0 : κ) (v0 : ν) (d : List (κ × ν))
    (k : κ) (f : ν → ν) :
    dictUpdate ((k0, v0) :: d) k f =
      if k0 = k then (k0, f v0) :: d else (k0, v0) :: dictUpdate d k f := rfl

theorem dictGet?_append_some {κ ν : Type} [DecidableEq κ] {d1 : List (κ × ν)} {k : κ} {v : ν}
    (d2 : List (κ × ν)) (h : dictGet? d1 k = some v) :
    dictGet? (d1 ++ d2) k = some v := by
  induction d1 with
  | nil => rw [dictGet?_nil] at h; exact Option.noConfusion h
  | cons p rest ih =>
    obtain ⟨k0, v0⟩ := p
    rw [dictGet?_cons] at h
    rw [List.cons_append, dictGet?_cons]
    by_cases hk : k0 = k
    · rwa [if_pos hk] at h ⊢
    · rw [if_neg hk] at h ⊢
      exact ih h

theorem dictGet?_append_none {κ ν : Type} [DecidableEq κ] {d1 : List (κ × ν)} {k : κ}
    (d2 : List (κ × ν)) (h : dictGet? d1 k = none) :
    dictGet? (d1 ++ d2) k = dictGet? d2 k := by
  induction d1 with
  | nil => simp
  | cons p rest ih =>
    obtain ⟨k0, v0⟩ := p
    rw [dictGet?_cons] at h
    rw [List.cons_append, dictGet?_cons]
    by_cases hk : k0 = k
    · rw [if_pos hk] at h; exact Option.noConfusion h
    · rw [if_neg hk] at h ⊢
      exact ih h

theorem dictGet?_update_self {κ ν : Type} [DecidableEq κ] (d : List (κ × ν)) (k : κ) (f : ν → ν) :
    dictGet? (dictUpdate d k f) k = (dictGet? d k).map f := by
  induction d with
  | nil => rfl
  | cons p rest ih =>
    obtain ⟨k0, v0⟩ := p
    rw [dictUpdate_cons, dictGet?_cons]
    by_cases hk : k0 = k
    · rw [if_pos hk, dictGet?_cons, if_pos hk, if_pos hk]
      rfl
    · rw [if_neg hk, dictGet?_cons, if_neg hk, if_neg hk]
      exact ih

theorem dictGet?_update_ne {κ ν : Type} [DecidableEq κ] (d : List (κ × ν)) (k k' : κ)
    (f : ν → ν) (h : k' ≠ k) :
    dictGet? (dictUpdate d k f) k' = dictGet? d k' := by
  induction d with
  | nil => rfl
  | cons p rest ih =>
    obtain ⟨k0, v0⟩ := p
    rw [dictUpdate_cons, dictGet?_cons]
    by_cases hk : k0 = k
    · have hk' : ¬ (k0 = k') := by rw [hk]; exact fun hc => h hc.symm
      rw [if_pos hk, dictGet?_cons, if_neg hk', if_neg hk']
    · rw [if_neg hk, dictGet?_cons]
      by_cases hk2 : k0 = k'
      · rw [if_pos hk2, if_pos hk2]
      · rw [if_neg hk2, if_neg hk2]
        exact ih

theorem dictUpdate_keys {κ ν : Type} [DecidableEq κ] (d : List (κ × ν)) (k : κ) (f : ν → ν) :
    (dictUpdate d k f).map Prod.fst = d.map Prod.fst := by
  induction d with
  | nil => rfl
  | cons p rest ih =>
    obtain ⟨k0, v0⟩ := p
    rw [dictUpdate_cons]
    by_cases hk : k0 = k
    · rw [if_pos hk]; simp
    · rw [if_neg hk]; simp [ih]

theorem dictGet?_mem {κ ν : Type} [DecidableEq κ] {d : List (κ × ν)} {k : κ} {v : ν}
    (h : dictGet? d k = some v) : (k, v) ∈ d := by
  induction d with
  | nil => rw [dictGet?_nil] at h; exact Option.noConfusion h
  | cons p rest ih =>
    obtain ⟨k0, v0⟩ := p
    rw [dictGet?_cons] at h
    by_cases hk : k0 = k
    · rw [if_pos hk] at h
      have hv : v0 = v := Option.some_injective _ h
      rw [← hk, ← hv]
      exact List.mem_cons_self _ _
    · rw [if_neg hk] at h
      exact List.mem_cons_of_mem _ (ih h)

theorem dictGet?_eq_none_iff {κ ν : Type} [DecidableEq κ] (d : List (κ × ν)) (k : κ) :
    dictGet? d k = none ↔ k ∉ d.map Prod.fst := by
  induction d with
  | nil => simp [dictGet?_nil]
  | cons p rest ih =>
    obtain ⟨k0, v0⟩ := p
    rw [dictGet?_cons]
    by_cases hk : k0 = k
    · rw [if_pos hk]
      simp [hk]
    · rw [if_neg hk]
      simp only [List.map_cons, List.mem_cons, ih]
      constructor
      · intro h1 h2
        rcases h2 with h2 | h2
        · exact hk h2.symm
        · exact h1 h2
      · intro h1 h2
        exact h1 (Or.inr h2)

theorem dictGet?_some_key_mem {κ ν : Type} [DecidableEq κ] {d : List (κ × ν)} {k : κ} {v : ν}
    (h : dictGet? d k = some v) : k ∈ d.map Prod.fst := by
  by_contra hc
  rw [← dictGet?_eq_none_iff] at hc
  rw [h] at hc
  exact Option.noConfusion hc

/-! ## Lemmas about the Alias Resolver -/

theorem mem_dictInsertIfAbsent {κ ν : Type} [DecidableEq κ] {d : List (κ × ν)} {k0 k : κ}
    {v0 v : ν} (h : (k, v) ∈ dictInsertIfAbsent d k0 v0) :
    (k, v) ∈ d ∨ (k = k0 ∧ v = v0) := by
  unfold dictInsertIfAbsent at h
  by_cases hc : (dictGet? d k0).isSome
  · rw [if_pos hc] at h; exact Or.inl h
  · rw [if_neg hc] at h
    rcases List.mem_append.mp h with h1 | h1
    · exact Or.inl h1
    · right
      simp at h1
      exact ⟨h1.1, h1.2⟩

/-- Every binding added while folding an entity's alias list maps to the
entity's normalized primary name. -/
theorem mem_aliasFold {n : Str} {k v : Str} :
    ∀ {aliases : List Str} {m0 : AliasMap},
      (k, v) ∈ aliases.foldl
        (fun m a0 => let a := normName a0; if a = [] then m else dictInsertIfAbsent m a n) m0 →
      (k, v) ∈ m0 ∨ v = n := by
  intro aliases
  induction aliases with
  | nil => intro m0 h; exact Or.inl h
  | cons a0 rest ih =>
    intro m0 h
    rcases ih h with h1 | h1
    · by_cases ha : normName a0 = []
      · simp [ha] at h1; exact Or.inl h1
      · simp [ha] at h1
        rcases mem_dictInsertIfAbsent h1 with h2 | h2
        · exact Or.inl h2
        · exact Or.inr h2.2
    · exact Or.inr h1

/-- Every binding of addEntity amap e is either a binding of amap or maps to
the normalized, non-empty primary name of e. -/
theorem mem_addEntity {amap : AliasMap} {e : RawEntity} {k v : Str}
    (h : (k, v) ∈ addEntity amap e) :
    (k, v) ∈ amap ∨ (v = normName e.name ∧ normName e.name ≠ []) := by
  unfold addEntity at h
  by_cases hn : normName e.name = []
  · rw [if_pos hn] at h; exact Or.inl h
  · rw [if_neg hn] at h
    rcases mem_aliasFold h with h1 | h1
    · rcases mem_dictInsertIfAbsent h1 with h2 | h2
      · exact Or.inl h2
      · exact Or.inr ⟨h2.2, hn⟩
    · exact Or.inr ⟨h1, hn⟩

/-- Every value of the alias map built by _merge_alias_map is the
normalized, non-empty primary name of some entity in the input. -/
theorem mergeAliasMap_values {es : List RawEntity} {k v : Str}
    (h : dictGet? (mergeAliasMap es) k = some v) :
    ∃ e ∈ es, v = normName e.name ∧ normName e.name ≠ [] := by
  have hmem : (k, v) ∈ mergeAliasMap es := dictGet?_mem h
  unfold mergeAliasMap at hmem
  suffices hgen : ∀ (l : List RawEntity) (acc : AliasMap), (k, v) ∈ l.foldl addEntity acc →
      (k, v) ∈ acc ∨ ∃ e ∈ l, v = normName e.name ∧ normName e.name ≠ [] by
    rcases hgen es [] hmem with h1 | h1
    · simp at h1
    · exact h1
  intro l
  induction l with
  | nil => intro acc h1; exact Or.inl h1
  | cons e rest ih =>
    intro acc h1
    rcases ih (addEntity acc e) h1 with h2 | h2
    · rcases mem_addEntity h2 with h3 | h3
      · exact Or.inl h3
      · exact Or.inr ⟨e, by simp, h3⟩
    · obtain ⟨e2, he2, hv⟩ := h2
      exact Or.inr ⟨e2, List.mem_cons_of_mem _ he2, hv⟩

/-! ## Claim C1: alias resolution single-hop and idempotent -/

/-- C1 counterexample: on the entity list
[{name "A", aliases ["B"]}, {name "B", aliases ["C"]}] the map built by
_merge_alias_map sends C to B and B to A, so resolve(resolve("C")) = "A"
differs from resolve("C") = "B", and the key "C" maps to "B", a key that
does not map to itself: the claimed idempotence and no-chains invariant
fail on the code. -/
theorem C1_alias_counterexample :
    dictGet? (mergeAliasMap [RawEntity.mk "A".toList ["B".toList],
        RawEntity.mk "B".toList ["C".toList]]) "C".toList = some "B".toList
    ∧ dictGet? (mergeAliasMap [RawEntity.mk "A".toList ["B".toList],
        RawEntity.mk "B".toList ["C".toList]]) "B".toList = some "A".toList
    ∧ canon (mergeAliasMap [RawEntity.mk "A".toList ["B".toList],
          RawEntity.mk "B".toList ["C".toList]])
        (canon (mergeAliasMap [RawEntity.mk "A".toList ["B".toList],
          RawEntity.mk "B".toList ["C".toList]]) "C".toList)
      ≠ canon (mergeAliasMap [RawEntity.mk "A".toList ["B".toList],
          RawEntity.mk "B".toList ["C".toList]]) "C".toList := by
  decide

/-- C1 (amended): alias resolution is single-hop and idempotent on runs in
which every entity's normalized primary name is mapped to itself in the
final AliasMap (no entity's primary name was first registered as an alias
of a different entity).  Under that hypothesis, for every name string
resolve(resolve(name)) = resolve(name), and every key maps to itself or to
a name that is also a key mapping to itself. -/
theorem C1_alias_single_hop_idem (es : List RawEntity) (name k v : Str)
    (H : ∀ e ∈ es, normName e.name ≠ [] →
      dictGet? (mergeAliasMap es) (normName e.name) = some (normName e.name))
    (hkv : dictGet? (mergeAliasMap es) k = some v) :
    canon (mergeAliasMap es) (canon (mergeAliasMap es) name) = canon (mergeAliasMap es) name
    ∧ (v = k ∨ dictGet? (mergeAliasMap es) v = some v) := by
  have hval : ∀ {k' v' : Str}, dictGet? (mergeAliasMap es) k' = some v' →
      dictGet? (mergeAliasMap es) v' = some v' ∧ normName v' = v' := by
    intro k' v' h
    obtain ⟨e, he, hv, hne⟩ := mergeAliasMap_values h
    constructor
    · rw [hv]; exact H e he hne
    · rw [hv]; exact normName_idem _
  have hcanon : ∀ x, canon (mergeAliasMap es) x =
      (dictGet? (mergeAliasMap es) (normName x)).getD (normName x) := fun _ => rfl
  constructor
  · rw [hcanon name]
    cases h : dictGet? (mergeAliasMap es) (normName name) with
    | none =>
      simp only [Option.getD_none]
      rw [hcanon (normName name), normName_idem, h]
      simp
    | some v' =>
      simp only [Option.getD_some]
      obtain ⟨hlook, hnorm⟩ := hval h
      rw [hcanon v', hnorm, hlook]
      simp
  · exact Or.inr (hval hkv).1

/-- Witness for C1_alias_single_hop_idem at the single entity
{name "A", aliases ["B"]}: the hypotheses hold and resolution of "B" is
idempotent, its image "A" being a key mapping to itself. -/
theorem C1_alias_single_hop_idem_witness :
    (∀ e ∈ [RawEntity.mk "A".toList ["B".toList]], normName e.name ≠ [] →
      dictGet? (mergeAliasMap [RawEntity.mk "A".toList ["B".toList]]) (normName e.name) =
        some (normName e.name))
    ∧ dictGet? (mergeAliasMap [RawEntity.mk "A".toList ["B".toList]]) "B".toList =
        some "A".toList
    ∧ (canon (mergeAliasMap [RawEntity.mk "A".toList ["B".toList]])
          (canon (mergeAliasMap [RawEntity.mk "A".toList ["B".toList]]) "B".toList)
        = canon (mergeAliasMap [RawEntity.mk "A".toList ["B".toList]]) "B".toList
      ∧ ("A".toList = "B".toList
        ∨ dictGet? (mergeAliasMap [RawEntity.mk "A".toList ["B".toList]]) "A".toList =
            some "A".toList)) :=
  ⟨by decide, by decide,
    C1_alias_single_hop_idem [RawEntity.mk "A".toList ["B".toList]]
      "B".toList "B".toList "A".toList (by decide) (by decide)⟩

/-! ## Lemmas about the chunk splitter -/

theorem chunkLoop_nil_of_ge (fuel : Nat) (body : Str) (L step i : Nat)
    (h : body.length ≤ i) : chunkLoop fuel body L step i = [] := by
  cases fuel with
  | zero => rfl
  | succ f =>
    unfold chunkLoop
    rw [if_neg (by omega)]

/-- As long as the fuel is at least len(body) - i, the fuel never runs out:
the loop behaves exactly like the Python while-loop. -/
theorem chunkLoop_getElem? (body : Str) (L step : Nat) (hstep : 1 ≤ step) :
    ∀ (k i fuel : Nat), body.length - i ≤ fuel →
    (chunkLoop fuel body L step i)[k]? =
      if i + k * step < body.length then some (mkChunk body (i + k * step) L) else none := by
  intro k
  induction k with
  | zero =>
    intro i fuel hfuel
    by_cases hi : i < body.length
    · cases fuel with
      | zero => omega
      | succ f =>
        unfold chunkLoop
        rw [if_pos hi, if_pos (by omega)]
        simp
    · rw [chunkLoop_nil_of_ge _ _ _ _ _ (by omega), if_neg (by omega)]
      simp
  | succ k ih =>
    intro i fuel hfuel
    by_cases hi : i < body.length
    · cases fuel with
      | zero => omega
      | succ f =>
        unfold chunkLoop
        rw [if_pos hi]
        rw [List.getElem?_cons_succ]
        rw [ih (i + step) f (by omega)]
        have harith : i + step + k * step = i + (k + 1) * step := by ring
        rw [harith]
    · rw [chunkLoop_nil_of_ge _ _ _ _ _ (by omega), if_neg (by omega)]
      simp

theorem coveredB_nil (x : Nat) : coveredB [] x = false := rfl

theorem coveredB_cons (w : ChunkRec) (ws : List ChunkRec) (x : Nat) :
    coveredB (w :: ws) x =
      ((decide (w.start_char ≤ x) && decide (x < w.end_char)) || coveredB ws x) := rfl

/-- The windows emitted from position i jointly cover exactly [i, len(body)). -/
theorem chunkLoop_coveredB (body : Str) (L step : Nat) (hstep : 1 ≤ step) (hstepL : step ≤ L) :
    ∀ (fuel i x : Nat), body.length - i ≤ fuel →
    (coveredB (chunkLoop fuel body L step i) x = true ↔ (i ≤ x ∧ x < body.length)) := by
  intro fuel
  induction fuel with
  | zero =>
    intro i x hfuel
    rw [chunkLoop_nil_of_ge _ _ _ _ _ (by omega), coveredB_nil]
    constructor
    · intro h; exact Bool.noConfusion h
    · intro h; omega
  | succ f ih =>
    intro i x hfuel
    by_cases hi : i < body.length
    · unfold chunkLoop
      rw [if_pos hi, coveredB_cons, Bool.or_eq_true, Bool.and_eq_true]
      rw [ih (i + step) x (by omega)]
      simp only [decide_eq_true_eq, mkChunk]
      have hmin := min_choice body.length (i + L)
      constructor
      · rintro (⟨h1, h2⟩ | ⟨h1, h2⟩)
        · rcases hmin with hm | hm <;> rw [hm] at h2 <;> constructor <;> omega
        · constructor <;> omega
      · rintro ⟨h1, h2⟩
        by_cases hx : x < min body.length (i + L)
        · exact Or.inl ⟨h1, hx⟩
        · rcases hmin with hm | hm <;> rw [hm] at hx <;> right <;> constructor <;> omega
    · rw [chunkLoop_nil_of_ge _ _ _ _ _ (by omega), coveredB_nil]
      constructor
      · intro h; exact Bool.noConfusion h
      · intro h; omega

/-- With 1 <= L and O < L, chunkText reduces to the stripped-body loop with
step = L - O. -/
theorem chunkText_eq_loop (body : Str) (L O : Nat) (hO : O < L)
    (hne : pyStrip body ≠ []) :
    chunkText body L O =
      chunkLoop (pyStrip body).length (pyStrip body) L (L - O) 0 := by
  unfold chunkText
  rw [if_neg hne, Nat.max_eq_right (by omega)]

/-! ## Claim C2: chunk coverage and overlap -/

/-- C2 counterexample: on the six-character body "abcdef" with L = 4, O = 3
the emitted windows are [0,4), [1,5), [2,6), [3,6), [4,6), [5,6).  The
consecutive pair at positions 3 and 4 overlaps by 6 - 4 = 2, not O = 3,
although position 4 is not the last window (the list has six windows): the
claimed "overlap exactly O except possibly the last window" fails. -/
theorem C2_chunk_coverage_counterexample :
    (chunkText "abcdef".toList 4 3).length = 6
    ∧ ((chunkText "abcdef".toList 4 3).getD 3 default).end_char = 6
    ∧ ((chunkText "abcdef".toList 4 3).getD 4 default).start_char = 4
    ∧ ((chunkText "abcdef".toList 4 3).getD 3 default).end_char
        - ((chunkText "abcdef".toList 4 3).getD 4 default).start_char = 2 := by
  decide

/-- C2 (amended): for a trimmed body of length n > 0 and L >= 1, 0 <= O < L,
the union of the emitted [start_char, end_char) windows is exactly [0, n);
a consecutive pair of windows overlaps by exactly O characters whenever the
earlier window of the pair is full-length (start_char + L <= n).  Pairs
whose earlier window is already truncated at n overlap by fewer than O
characters, even when the later window is not the last. -/
theorem C2_chunk_coverage_overlap (body : Str) (L O x k : Nat) (wa wb : ChunkRec)
    (hL : 1 ≤ L) (hO : O < L) (hn : 0 < (pyStrip body).length) :
    (coveredB (chunkText body L O) x = true ↔ x < (pyStrip body).length)
    ∧ ((chunkText body L O)[k]? = some wa →
       (chunkText body L O)[k + 1]? = some wb →
       wa.start_char + L ≤ (pyStrip body).length →
       wb.start_char ≤ wa.end_char ∧ wa.end_char - wb.start_char = O) := by
  have hbne : pyStrip body ≠ [] := by
    intro hc; rw [hc] at hn; simp at hn
  have hloop := chunkText_eq_loop body L O hO hbne
  have hstep : 1 ≤ L - O := by omega
  have hcov := chunkLoop_coveredB (pyStrip body) L (L - O) hstep (by omega)
    (pyStrip body).length 0 x (by omega)
  constructor
  · rw [hloop]
    exact ⟨fun h => (hcov.mp h).2, fun h => hcov.mpr ⟨Nat.zero_le _, h⟩⟩
  · intro hka hkb hfull
    have hga := chunkLoop_getElem? (pyStrip body) L (L - O) hstep k 0
      (pyStrip body).length (by omega)
    have hgb := chunkLoop_getElem? (pyStrip body) L (L - O) hstep (k + 1) 0
      (pyStrip body).length (by omega)
    rw [hloop] at hka hkb
    rw [hka] at hga
    rw [hkb] at hgb
    have hkb' : 0 + (k + 1) * (L - O) < (pyStrip body).length := by
      by_contra hc
      rw [if_neg hc] at hgb
      exact Option.noConfusion hgb
    have hka' : 0 + k * (L - O) < (pyStrip body).length := by
      have : 0 + k * (L - O) ≤ 0 + (k + 1) * (L - O) := by
        have : k * (L - O) ≤ (k + 1) * (L - O) := Nat.mul_le_mul_right _ (by omega)
        omega
      omega
    rw [if_pos hka'] at hga
    rw [if_pos hkb'] at hgb
    have hwa : wa = mkChunk (pyStrip body) (0 + k * (L - O)) L := Option.some_injective _ hga
    have hwb : wb = mkChunk (pyStrip body) (0 + (k + 1) * (L - O)) L := Option.some_injective _ hgb
    have h1 : k * (L - O) + L ≤ (pyStrip body).length := by
      rw [hwa] at hfull
      simp only [mkChunk] at hfull
      omega
    constructor
    · rw [hwa, hwb]
      simp only [mkChunk]
      rw [Nat.min_eq_right (by omega)]
      have : (k + 1) * (L - O) = k * (L - O) + (L - O) := by ring
      omega
    · rw [hwa, hwb]
      simp only [mkChunk]
      rw [Nat.min_eq_right (by omega)]
      have : (k + 1) * (L - O) = k * (L - O) + (L - O) := by ring
      omega

/-- Witness for C2_chunk_coverage_overlap: body "abcde", L = 3, O = 1
(windows [0,3), [2,5), [4,5)), pair at positions 0 and 1, x = 2. -/
theorem C2_chunk_coverage_overlap_witness :
    (1 ≤ 3 ∧ 1 < 3 ∧ 0 < (pyStrip "abcde".toList).length)
    ∧ ((coveredB (chunkText "abcde".toList 3 1) 2 = true ↔ 2 < (pyStrip "abcde".toList).length)
      ∧ ((chunkText "abcde".toList 3 1)[0]? = some ⟨0, 3, "abc".toList⟩ →
         (chunkText "abcde".toList 3 1)[0 + 1]? = some ⟨2, 5, "cde".toList⟩ →
         (ChunkRec.mk 0 3 "abc".toList).start_char + 3 ≤ (pyStrip "abcde".toList).length →
         (ChunkRec.mk 2 5 "cde".toList).start_char ≤ (ChunkRec.mk 0 3 "abc".toList).end_char
           ∧ (ChunkRec.mk 0 3 "abc".toList).end_char
               - (ChunkRec.mk 2 5 "cde".toList).start_char = 1)) :=
  ⟨⟨by decide, by decide, by decide⟩,
    C2_chunk_coverage_overlap "abcde".toList 3 1 2 0 ⟨0, 3, "abc".toList⟩ ⟨2, 5, "cde".toList⟩
      (by decide) (by decide) (by decide)⟩

/-! ## Claim C8: short-body edge cases of the chunk splitter -/

/-- C8 counterexample: the two-character body "ab" (non-empty after
trimming, shorter than L = 3) yields TWO chunks with L = 3, O = 2, because
the window start advances by step = max(1, L - O) = 1 < len(body); the
claim that every trimmed body shorter than L yields exactly one chunk
fails. -/
theorem C8_short_body_counterexample :
    ("ab".toList.length < 3 ∧ pyStrip "ab".toList = "ab".toList)
    ∧ (chunkText "ab".toList 3 2).length = 2 := by
  decide

/-- C8 (amended): a body that is empty after trimming yields zero chunks
(no error); a body that is non-empty after trimming and of length at most
L - O yields exactly one chunk covering the whole trimmed body.  (A trimmed
body of length n with L - O < n < L yields more than one chunk, see the
counterexample.) -/
theorem C8_short_body (body1 body2 : Str) (L O : Nat) (hO : O < L)
    (h1 : pyStrip body1 = [])
    (h2 : pyStrip body2 ≠ [])
    (h3 : (pyStrip body2).length ≤ L - O) :
    chunkText body1 L O = []
    ∧ chunkText body2 L O = [⟨0, (pyStrip body2).length, pyStrip body2⟩] := by
  constructor
  · unfold chunkText
    rw [if_pos h1]
  · rw [chunkText_eq_loop body2 L O hO h2]
    have hn : 0 < (pyStrip body2).length := List.length_pos.mpr h2
    cases hlen : (pyStrip body2).length with
    | zero => omega
    | succ m =>
      unfold chunkLoop
      rw [hlen] at hn ⊢
      rw [if_pos (by omega)]
      have htail : chunkLoop m (pyStrip body2) L (L - O) (0 + (L - O)) = [] := by
        apply chunkLoop_nil_of_ge
        omega
      rw [htail]
      unfold mkChunk
      rw [Nat.min_eq_left (by omega)]
      simp only [List.drop_zero, Nat.sub_zero]
      rw [← hlen, List.take_length]

/-- Witness for C8_short_body: the all-whitespace body " " trims to nothing
and yields no chunks; the body "ab" with L = 5, O = 2 yields exactly one
chunk covering [0, 2). -/
theorem C8_short_body_witness :
    (2 < 5 ∧ pyStrip " ".toList = [] ∧ pyStrip "ab".toList ≠ []
      ∧ (pyStrip "ab".toList).length ≤ 5 - 2)
    ∧ (chunkText " ".toList 5 2 = []
      ∧ chunkText "ab".toList 5 2 =
          [⟨0, (pyStrip "ab".toList).length, pyStrip "ab".toList⟩]) :=
  ⟨⟨by decide, by decide, by decide, by decide⟩,
    C8_short_body " ".toList "ab".toList 5 2 (by decide) (by decide) (by decide) (by decide)⟩

/-! ## Lemmas about the chunker emission loop -/

theorem emitChunks_cons (maxChunks ci : Nat) (title : Str) (c : ChunkRec)
    (rest : List ChunkRec) (k : Nat) (st : EmitState) :
    emitChunks maxChunks ci title (c :: rest) k st =
      if stopEmit maxChunks ⟨st.out ++ [mkOutLine st.cid ci title k c], st.cid + 1⟩
      then ⟨st.out ++ [mkOutLine st.cid ci title k c], st.cid + 1⟩
      else emitChunks maxChunks ci title rest (k + 1)
        ⟨st.out ++ [mkOutLine st.cid ci title k c], st.cid + 1⟩ := rfl

theorem emitChapters_cons (maxChars overlap maxChunks : Nat) (text : Str)
    (title : Str) (s e : Nat) (rest : List (Str × Nat × Nat)) (ci : Nat) (st : EmitState) :
    emitChapters maxChars overlap maxChunks text ((title, s, e) :: rest) ci st =
      if stopEmit maxChunks (emitChunks maxChunks ci title
          (chunkText (pyStrip ((text.drop s).take (e - s))) maxChars overlap) 1 st)
      then emitChunks maxChunks ci title
          (chunkText (pyStrip ((text.drop s).take (e - s))) maxChars overlap) 1 st
      else emitChapters maxChars overlap maxChunks text rest (ci + 1)
        (emitChunks maxChunks ci title
          (chunkText (pyStrip ((text.drop s).take (e - s))) maxChars overlap) 1 st) := rfl

/-- Emitting chunks preserves the invariant that out_lines carries the
chunk_ids 0, 1, ..., len(out_lines)-1 in order and that the counter equals
the number of emitted lines. -/
theorem emitChunks_ids (maxChunks ci : Nat) (title : Str) :
    ∀ (chunks : List ChunkRec) (k : Nat) (st : EmitState),
      st.out.map (fun r => r.chunk_id) = List.range st.out.length →
      st.cid = st.out.length →
      (emitChunks maxChunks ci title chunks k st).out.map (fun r => r.chunk_id) =
          List.range (emitChunks maxChunks ci title chunks k st).out.length
        ∧ (emitChunks maxChunks ci title chunks k st).cid =
            (emitChunks maxChunks ci title chunks k st).out.length := by
  intro chunks
  induction chunks with
  | nil => intro k st h1 h2; exact ⟨h1, h2⟩
  | cons c rest ih =>
    intro k st h1 h2
    rw [emitChunks_cons]
    set st' : EmitState := ⟨st.out ++ [mkOutLine st.cid ci title k c], st.cid + 1⟩ with hst'
    have h1' : st'.out.map (fun r => r.chunk_id) = List.range st'.out.length := by
      rw [hst']
      show (st.out ++ [mkOutLine st.cid ci title k c]).map (fun r => r.chunk_id) =
        List.range (st.out ++ [mkOutLine st.cid ci title k c]).length
      rw [List.map_append, List.length_append, h1, h2]
      simp [List.range_succ, mkOutLine]
    have h2' : st'.cid = st'.out.length := by
      rw [hst']
      show st.cid + 1 = (st.out ++ [mkOutLine st.cid ci title k c]).length
      rw [List.length_append, h2]
      rfl
    by_cases hstop : stopEmit maxChunks st' = true
    · rw [if_pos hstop]
      exact ⟨h1', h2'⟩
    · rw [if_neg hstop]
      exact ih (k + 1) st' h1' h2'

/-- The chapter loop preserves the same chunk_id invariant. -/
theorem emitChapters_ids (maxChars overlap maxChunks : Nat) (text : Str) :
    ∀ (spans : List (Str × Nat × Nat)) (ci : Nat) (st : EmitState),
      st.out.map (fun r => r.chunk_id) = List.range st.out.length →
      st.cid = st.out.length →
      (emitChapters maxChars overlap maxChunks text spans ci st).out.map (fun r => r.chunk_id) =
          List.range (emitChapters maxChars overlap maxChunks text spans ci st).out.length
        ∧ (emitChapters maxChars overlap maxChunks text spans ci st).cid =
            (emitChapters maxChars overlap maxChunks text spans ci st).out.length := by
  intro spans
  induction spans with
  | nil => intro ci st h1 h2; exact ⟨h1, h2⟩
  | cons sp rest ih =>
    obtain ⟨title, s, e⟩ := sp
    intro ci st h1 h2
    rw [emitChapters_cons]
    obtain ⟨g1, g2⟩ := emitChunks_ids maxChunks ci title
      (chunkText (pyStrip ((text.drop s).take (e - s))) maxChars overlap) 1 st h1 h2
    by_cases hstop : stopEmit maxChunks (emitChunks maxChunks ci title
        (chunkText (pyStrip ((text.drop s).take (e - s))) maxChars overlap) 1 st) = true
    · rw [if_pos hstop]
      exact ⟨g1, g2⟩
    · rw [if_neg hstop]
      exact ih (ci + 1) _ g1 g2

/-- Emitting a chapter's chunks keeps the (chapter_index, part_index)
coordinates strictly increasing, and every emitted coordinate has
chapter_index at most the current chapter. -/
theorem emitChunks_pairs (maxChunks ci : Nat) (title : Str) :
    ∀ (chunks : List ChunkRec) (k : Nat) (st : EmitState),
      List.Pairwise ltPair (pairsOf st.out) →
      (∀ p ∈ pairsOf st.out, ltPair p (ci, k)) →
      List.Pairwise ltPair (pairsOf (emitChunks maxChunks ci title chunks k st).out)
        ∧ ∀ p ∈ pairsOf (emitChunks maxChunks ci title chunks k st).out, p.1 ≤ ci := by
  intro chunks
  induction chunks with
  | nil =>
    intro k st h1 h2
    refine ⟨h1, fun p hp => ?_⟩
    rcases h2 p hp with h | h
    · omega
    · omega
  | cons c rest ih =>
    intro k st h1 h2
    rw [emitChunks_cons]
    set st' : EmitState := ⟨st.out ++ [mkOutLine st.cid ci title k c], st.cid + 1⟩ with hst'
    have hpairs : pairsOf st'.out = pairsOf st.out ++ [(ci, k)] := by
      rw [hst']
      show pairsOf (st.out ++ [mkOutLine st.cid ci title k c]) = pairsOf st.out ++ [(ci, k)]
      unfold pairsOf
      rw [List.map_append]
      rfl
    have h1' : List.Pairwise ltPair (pairsOf st'.out) := by
      rw [hpairs, List.pairwise_append]
      refine ⟨h1, List.pairwise_singleton _ _, fun a ha b hb => ?_⟩
      rw [List.mem_singleton] at hb
      rw [hb]
      exact h2 a ha
    have h2' : ∀ p ∈ pairsOf st'.out, ltPair p (ci, k + 1) := by
      rw [hpairs]
      intro p hp
      rcases List.mem_append.mp hp with hp | hp
      · rcases h2 p hp with h | h
        · exact Or.inl h
        · exact Or.inr ⟨h.1, by omega⟩
      · rw [List.mem_singleton] at hp
        rw [hp]
        exact Or.inr ⟨rfl, by omega⟩
    by_cases hstop : stopEmit maxChunks st' = true
    · rw [if_pos hstop]
      refine ⟨h1', fun p hp => ?_⟩
      rcases h2' p hp with h | h
      · omega
      · omega
    · rw [if_neg hstop]
      exact ih (k + 1) st' h1' h2'

/-- The chapter loop keeps the (chapter_index, part_index) coordinates
strictly increasing. -/
theorem emitChapters_pairs (maxChars overlap maxChunks : Nat) (text : Str) :
    ∀ (spans : List (Str × Nat × Nat)) (ci : Nat) (st : EmitState),
      List.Pairwise ltPair (pairsOf st.out) →
      (∀ p ∈ pairsOf st.out, p.1 < ci) →
      List.Pairwise ltPair
        (pairsOf (emitChapters maxChars overlap maxChunks text spans ci st).out) := by
  intro spans
  induction spans with
  | nil => intro ci st h1 _; exact h1
  | cons sp rest ih =>
    obtain ⟨title, s, e⟩ := sp
    intro ci st h1 h2
    rw [emitChapters_cons]
    obtain ⟨g1, g2⟩ := emitChunks_pairs maxChunks ci title
      (chunkText (pyStrip ((text.drop s).take (e - s))) maxChars overlap) 1 st h1
      (fun p hp => Or.inl (h2 p hp))
    by_cases hstop : stopEmit maxChunks (emitChunks maxChunks ci title
        (chunkText (pyStrip ((text.drop s).take (e - s))) maxChars overlap) 1 st) = true
    · rw [if_pos hstop]
      exact g1
    · rw [if_neg hstop]
      exact ih (ci + 1) _ g1 (fun p hp => by have := g2 p hp; omega)

/-! ## Claim C7: chunk_id uniqueness, contiguity and monotonicity -/

/-- C7: across one full chunker run, for any caps, the emitted chunk_ids
are exactly 0, 1, ..., n-1 in emission order (hence unique, contiguous from
0, and never renumbered by truncation), and the (chapter_index, part_index)
coordinates are strictly increasing lexicographically along the emission
order, so chunk_ids are strictly increasing in (chapter_index, part_index)
order. -/
theorem C7_chunk_id_monotone (text : Str) (spans : List (Str × Nat × Nat))
    (maxChars overlap maxChapters maxChunks : Nat) :
    (chunkerMain text spans maxChars overlap maxChapters maxChunks).map (fun r => r.chunk_id) =
      List.range (chunkerMain text spans maxChars overlap maxChapters maxChunks).length
    ∧ List.Pairwise ltPair
        (pairsOf (chunkerMain text spans maxChars overlap maxChapters maxChunks)) := by
  unfold chunkerMain
  constructor
  · exact (emitChapters_ids maxChars overlap maxChunks text _ 1 ⟨[], 0⟩ rfl rfl).1
  · exact emitChapters_pairs maxChars overlap maxChunks text _ 1 ⟨[], 0⟩
      (by simp [pairsOf]) (by simp [pairsOf])

/-! ## Lemmas about the relation deduplicator -/

theorem dictGet?_append_single_ne {κ ν : Type} [DecidableEq κ] (d : List (κ × ν))
    (k0 k : κ) (v0 : ν) (h : k0 ≠ k) :
    dictGet? (d ++ [(k0, v0)]) k = dictGet? d k := by
  cases hd : dictGet? d k with
  | some v => exact dictGet?_append_some _ hd
  | none => rw [dictGet?_append_none _ hd, dictGet?_cons, if_neg h, dictGet?_nil]

theorem mergeRels_concat (amap : AliasMap) (ms : List Mention) (m : Mention) :
    mergeRels amap (ms ++ [m]) = mergeStep amap (mergeRels amap ms) m := by
  unfold mergeRels
  rw [List.foldl_append]
  rfl

theorem keyMentions_append (amap : AliasMap) (k : RelKey) (ms1 ms2 : List Mention) :
    keyMentions amap k (ms1 ++ ms2) = keyMentions amap k ms1 ++ keyMentions amap k ms2 := by
  unfold keyMentions
  rw [List.filter_append]

theorem mergeStep_fst (amap : AliasMap) (st : List (RelKey × RelItem) × List EvLogEntry)
    (m : Mention) :
    (mergeStep amap st m).1 =
      if quoteOf m = []
      then (if dictGet? st.1 (keyOf amap m) = none
            then st.1 ++ [(keyOf amap m, newItemOf amap m)]
            else dictUpdate st.1 (keyOf amap m)
              (fun it => { it with confidence := max it.confidence (confOf m) }))
      else dictUpdate
            (if dictGet? st.1 (keyOf amap m) = none
             then st.1 ++ [(keyOf amap m, newItemOf amap m)]
             else dictUpdate st.1 (keyOf amap m)
               (fun it => { it with confidence := max it.confidence (confOf m) }))
            (keyOf amap m)
            (fun it => { it with evidence := it.evidence ++ [evObjOf m] }) := by
  unfold mergeStep
  by_cases hq : quoteOf m = [] <;> simp [hq]

theorem mergeStep_snd (amap : AliasMap) (st : List (RelKey × RelItem) × List EvLogEntry)
    (m : Mention) :
    (mergeStep amap st m).2 =
      if quoteOf m = [] then st.2
      else st.2 ++ [{ key := keyOf amap m, ev := evObjOf m }] := by
  unfold mergeStep
  by_cases hq : quoteOf m = [] <;> simp [hq]

theorem mergeStep_lookup_self_new (amap : AliasMap)
    (st : List (RelKey × RelItem) × List EvLogEntry) (m : Mention)
    (h : dictGet? st.1 (keyOf amap m) = none) :
    dictGet? (mergeStep amap st m).1 (keyOf amap m) =
      some (if quoteOf m = [] then newItemOf amap m
            else { newItemOf amap m with evidence := [evObjOf m] }) := by
  rw [mergeStep_fst]
  by_cases hq : quoteOf m = []
  · rw [if_pos hq, if_pos h, if_pos hq]
    rw [dictGet?_append_none _ h, dictGet?_cons, if_pos rfl]
  · rw [if_neg hq, if_pos h, if_neg hq]
    rw [dictGet?_update_self, dictGet?_append_none _ h, dictGet?_cons, if_pos rfl]
    rfl

theorem mergeStep_lookup_self_old (amap : AliasMap)
    (st : List (RelKey × RelItem) × List EvLogEntry) (m : Mention) (it : RelItem)
    (h : dictGet? st.1 (keyOf amap m) = some it) :
    dictGet? (mergeStep amap st m).1 (keyOf amap m) =
      some (if quoteOf m = []
            then { it with confidence := max it.confidence (confOf m) }
            else { it with
                   confidence := max it.confidence (confOf m)
                   evidence := it.evidence ++ [evObjOf m] }) := by
  have hne : ¬ (dictGet? st.1 (keyOf amap m) = none) := by
    rw [h]; exact fun hc => Option.noConfusion hc
  rw [mergeStep_fst]
  by_cases hq : quoteOf m = []
  · rw [if_pos hq, if_pos hq, if_neg hne, dictGet?_update_self, h]
    rfl
  · rw [if_neg hq, if_neg hq, if_neg hne, dictGet?_update_self, dictGet?_update_self, h]
    rfl

theorem mergeStep_lookup_other (amap : AliasMap)
    (st : List (RelKey × RelItem) × List EvLogEntry) (m : Mention) (k : RelKey)
    (hk : keyOf amap m ≠ k) :
    dictGet? (mergeStep amap st m).1 k = dictGet? st.1 k := by
  rw [mergeStep_fst]
  have hrmap : dictGet? (if dictGet? st.1 (keyOf amap m) = none
      then st.1 ++ [(keyOf amap m, newItemOf amap m)]
      else dictUpdate st.1 (keyOf amap m)
        (fun it => { it with confidence := max it.confidence (confOf m) })) k =
      dictGet? st.1 k := by
    by_cases hnew : dictGet? st.1 (keyOf amap m) = none
    · rw [if_pos hnew, dictGet?_append_single_ne _ _ _ _ hk]
    · rw [if_neg hnew, dictGet?_update_ne _ _ _ _ (Ne.symm hk)]
  by_cases hq : quoteOf m = []
  · rw [if_pos hq]
    exact hrmap
  · rw [if_neg hq, dictGet?_update_ne _ _ _ _ (Ne.symm hk)]
    exact hrmap

/-- Per-key characterization of the dedupe pass: the Relation stored for
key k is exactly itemOf applied to the mentions contributing to k, in input
order. -/
theorem mergeRels_lookup (amap : AliasMap) (k : RelKey) (ms : List Mention) :
    dictGet? (mergeRels amap ms).1 k =
      match keyMentions amap k ms with
      | [] => none
      | m1 :: rest => some (itemOf k m1 rest) := by
  induction ms using List.reverseRecOn with
  | nil => rfl
  | append_singleton ms m ih =>
    rw [mergeRels_concat, keyMentions_append]
    by_cases hk : keyOf amap m = k
    · subst hk
      have hkm1 : keyMentions amap (keyOf amap m) [m] = [m] := by
        unfold keyMentions
        simp
      rw [hkm1]
      cases hkmold : keyMentions amap (keyOf amap m) ms with
      | nil =>
        have hnone : dictGet? (mergeRels amap ms).1 (keyOf amap m) = none := by
          rw [ih, hkmold]
        rw [mergeStep_lookup_self_new _ _ _ hnone]
        show _ = some (itemOf (keyOf amap m) m [])
        congr 1
        by_cases hq : quoteOf m = []
        · rw [if_pos hq]
          unfold newItemOf itemOf
          simp [hq]
        · rw [if_neg hq]
          unfold newItemOf itemOf
          simp [hq]
      | cons m1 rest =>
        have hsome : dictGet? (mergeRels amap ms).1 (keyOf amap m) =
            some (itemOf (keyOf amap m) m1 rest) := by
          rw [ih, hkmold]
        rw [mergeStep_lookup_self_old _ _ _ _ hsome]
        show _ = some (itemOf (keyOf amap m) m1 (rest ++ [m]))
        congr 1
        have hsplit : m1 :: (rest ++ [m]) = (m1 :: rest) ++ [m] := rfl
        by_cases hq : quoteOf m = []
        · rw [if_pos hq]
          have hfil : List.filter (fun m0 => decide (quoteOf m0 ≠ [])) [m] = [] := by
            simp [hq]
          simp only [itemOf, List.foldl_append, List.foldl_cons, List.foldl_nil,
            hsplit, List.filter_append, hfil, List.append_nil]
        · rw [if_neg hq]
          have hfil : List.filter (fun m0 => decide (quoteOf m0 ≠ [])) [m] = [m] := by
            simp [hq]
          simp only [itemOf, List.foldl_append, List.foldl_cons, List.foldl_nil,
            hsplit, List.filter_append, hfil, List.map_append, List.map_cons, List.map_nil]
    · have hkm1 : keyMentions amap k [m] = [] := by
        unfold keyMentions
        simp [hk]
      rw [hkm1, List.append_nil, mergeStep_lookup_other _ _ _ _ hk, ih]

/-- The evidence log written by the dedupe pass: one line per mention with
a non-empty normalized quote, in input order. -/
theorem mergeRels_log (amap : AliasMap) (ms : List Mention) :
    (mergeRels amap ms).2 =
      (ms.filter (fun m => decide (quoteOf m ≠ []))).map
        (fun m => EvLogEntry.mk (keyOf amap m) (evObjOf m)) := by
  induction ms using List.reverseRecOn with
  | nil => rfl
  | append_singleton ms m ih =>
    rw [mergeRels_concat, mergeStep_snd, List.filter_append]
    by_cases hq : quoteOf m = []
    · rw [if_pos hq]
      have : List.filter (fun m0 => decide (quoteOf m0 ≠ [])) [m] = [] := by simp [hq]
      rw [this, List.append_nil, ih]
    · rw [if_neg hq]
      have : List.filter (fun m0 => decide (quoteOf m0 ≠ [])) [m] = [m] := by simp [hq]
      rw [this, List.map_append, ih]
      rfl

theorem foldl_conf_le (l : List Mention) (c : ℚ) :
    c ≤ l.foldl (fun c0 m => max c0 (confOf m)) c := by
  induction l generalizing c with
  | nil => exact le_refl c
  | cons a t ih =>
    rw [List.foldl_cons]
    exact le_trans (le_max_left _ _) (ih _)

theorem foldl_conf_mem_le (m : Mention) :
    ∀ (l : List Mention) (c : ℚ), m ∈ l →
      confOf m ≤ l.foldl (fun c0 m0 => max c0 (confOf m0)) c := by
  intro l
  induction l with
  | nil => intro c hm; exact absurd hm (List.not_mem_nil m)
  | cons a t ih =>
    intro c hm
    rw [List.foldl_cons]
    rcases List.mem_cons.mp hm with h | h
    · rw [h]
      exact le_trans (le_max_right _ _) (foldl_conf_le _ _)
    · exact ih _ h

theorem foldl_conf_all_le (l : List Mention) (c : ℚ)
    (h : ∀ m ∈ l, confOf m ≤ c) :
    l.foldl (fun c0 m => max c0 (confOf m)) c = c := by
  induction l with
  | nil => rfl
  | cons a t ih =>
    rw [List.foldl_cons, max_eq_left (h a (List.mem_cons_self _ _))]
    exact ih (fun m hm => h m (List.mem_cons_of_mem _ hm))

/-- Folding max over a duplicated mention list gives the same confidence as
folding once. -/
theorem conf_dup (m1 : Mention) (rest : List Mention) :
    (rest ++ (m1 :: rest)).foldl (fun c m => max c (confOf m)) (confOf m1) =
      rest.foldl (fun c m => max c (confOf m)) (confOf m1) := by
  rw [List.foldl_append, List.foldl_cons]
  rw [max_eq_left (foldl_conf_le rest (confOf m1))]
  exact foldl_conf_all_le rest _ (fun m hm => foldl_conf_mem_le m rest (confOf m1) hm)

theorem mergeStep_keys (amap : AliasMap) (st : List (RelKey × RelItem) × List EvLogEntry)
    (m : Mention) :
    (mergeStep amap st m).1.map Prod.fst =
      if dictGet? st.1 (keyOf amap m) = none
      then st.1.map Prod.fst ++ [keyOf amap m]
      else st.1.map Prod.fst := by
  rw [mergeStep_fst]
  by_cases hq : quoteOf m = [] <;>
    by_cases hnew : dictGet? st.1 (keyOf amap m) = none <;>
      simp [hq, hnew, dictUpdate_keys, List.map_append]

theorem mergeStep_lookup_mono (amap : AliasMap)
    (st : List (RelKey × RelItem) × List EvLogEntry) (m : Mention) (k : RelKey)
    (h : dictGet? st.1 k ≠ none) :
    dictGet? (mergeStep amap st m).1 k ≠ none := by
  by_cases hk : keyOf amap m = k
  · subst hk
    cases hl : dictGet? st.1 (keyOf amap m) with
    | none => exact absurd hl h
    | some it =>
      rw [mergeStep_lookup_self_old _ _ _ _ hl]
      exact fun hc => Option.noConfusion hc
  · rw [mergeStep_lookup_other _ _ _ _ hk]
    exact h

theorem foldl_mergeStep_keys (amap : AliasMap) :
    ∀ (ms2 : List Mention) (st : List (RelKey × RelItem) × List EvLogEntry),
      (∀ m ∈ ms2, dictGet? st.1 (keyOf amap m) ≠ none) →
      (ms2.foldl (mergeStep amap) st).1.map Prod.fst = st.1.map Prod.fst := by
  intro ms2
  induction ms2 with
  | nil => intro st _; rfl
  | cons m rest ih =>
    intro st h
    rw [List.foldl_cons]
    have h1 : dictGet? st.1 (keyOf amap m) ≠ none := h m (List.mem_cons_self _ _)
    rw [ih (mergeStep amap st m)
      (fun m2 hm2 => mergeStep_lookup_mono _ _ _ _ (h m2 (List.mem_cons_of_mem _ hm2)))]
    rw [mergeStep_keys, if_neg h1]

theorem mem_keyMentions_self (amap : AliasMap) (m : Mention) (ms : List Mention)
    (hm : m ∈ ms) : m ∈ keyMentions amap (keyOf amap m) ms := by
  unfold keyMentions
  rw [List.mem_filter]
  exact ⟨hm, by simp⟩

theorem mergeRels_lookup_mem (amap : AliasMap) (ms : List Mention) (m : Mention)
    (hm : m ∈ ms) :
    dictGet? (mergeRels amap ms).1 (keyOf amap m) ≠ none := by
  have h1 := mem_keyMentions_self amap m ms hm
  cases hkm : keyMentions amap (keyOf amap m) ms with
  | nil =>
    rw [hkm] at h1
    exact absurd h1 (List.not_mem_nil m)
  | cons m1 rest =>
    rw [mergeRels_lookup, hkm]
    exact fun hc => Option.noConfusion hc

/-! ## Claim C4: merge rule on key collision -/

/-- C4 counterexample: with two mentions of the same key where the first
carries empty notes and the second carries notes "X", the first non-empty
notes value among the contributing mentions is "X", but the merged
Relation's notes field is the empty string (the first mention's notes,
empty or not): the claimed "first non-empty notes value" rule fails. -/
theorem C4_merge_rule_counterexample :
    (([(RelMeta.mk "c0".toList "ch".toList,
          RawRel.mk "A".toList "B".toList "t".toList "s".toList [] [] none none none),
        (RelMeta.mk "c1".toList "ch".toList,
          RawRel.mk "A".toList "B".toList "t".toList "s".toList "X".toList [] none none none)].map
          (fun m => normName m.2.notes)).filter (fun s => decide (s ≠ []))).head? =
        some "X".toList
    ∧ ((dictGet? (mergeRels []
        [(RelMeta.mk "c0".toList "ch".toList,
          RawRel.mk "A".toList "B".toList "t".toList "s".toList [] [] none none none),
         (RelMeta.mk "c1".toList "ch".toList,
          RawRel.mk "A".toList "B".toList "t".toList "s".toList "X".toList [] none none none)]).1
        ("A".toList, "B".toList, "t".toList, "s".toList)).map (fun it => it.notes)) =
        some [] := by
  decide

/-- C4 (amended): on key collision the Relation's confidence is the max of
all contributing confidences (folded pairwise as max(existing, incoming)),
and the notes field holds the normalized notes of the FIRST contributing
mention in input order — even when that value is empty; a later non-empty
notes value never replaces it (values are never concatenated). -/
theorem C4_merge_rule_on_collision (amap : AliasMap) (ms : List Mention) (k : RelKey)
    (m1 : Mention) (rest : List Mention)
    (h : keyMentions amap k ms = m1 :: rest) :
    dictGet? (mergeRels amap ms).1 k = some (itemOf k m1 rest)
    ∧ (itemOf k m1 rest).confidence =
        rest.foldl (fun c m => max c (confOf m)) (confOf m1)
    ∧ (itemOf k m1 rest).notes = normName m1.2.notes := by
  refine ⟨?_, rfl, rfl⟩
  rw [mergeRels_lookup, h]

/-- Witness for C4_merge_rule_on_collision at two colliding mentions. -/
theorem C4_merge_rule_on_collision_witness :
    keyMentions [] ("A".toList, "B".toList, "t".toList, "s".toList)
      [(RelMeta.mk "c0".toList "ch".toList,
        RawRel.mk "A".toList "B".toList "t".toList "s".toList [] [] none none none),
       (RelMeta.mk "c1".toList "ch".toList,
        RawRel.mk "A".toList "B".toList "t".toList "s".toList "X".toList [] none none none)] =
      [(RelMeta.mk "c0".toList "ch".toList,
        RawRel.mk "A".toList "B".toList "t".toList "s".toList [] [] none none none),
       (RelMeta.mk "c1".toList "ch".toList,
        RawRel.mk "A".toList "B".toList "t".toList "s".toList "X".toList [] none none none)]
    ∧ (dictGet? (mergeRels []
        [(RelMeta.mk "c0".toList "ch".toList,
          RawRel.mk "A".toList "B".toList "t".toList "s".toList [] [] none none none),
         (RelMeta.mk "c1".toList "ch".toList,
          RawRel.mk "A".toList "B".toList "t".toList "s".toList "X".toList [] none none none)]).1
        ("A".toList, "B".toList, "t".toList, "s".toList) =
        some (itemOf ("A".toList, "B".toList, "t".toList, "s".toList)
          (RelMeta.mk "c0".toList "ch".toList,
            RawRel.mk "A".toList "B".toList "t".toList "s".toList [] [] none none none)
          [(RelMeta.mk "c1".toList "ch".toList,
            RawRel.mk "A".toList "B".toList "t".toList "s".toList "X".toList [] none none none)])
      ∧ (itemOf ("A".toList, "B".toList, "t".toList, "s".toList)
          (RelMeta.mk "c0".toList "ch".toList,
            RawRel.mk "A".toList "B".toList "t".toList "s".toList [] [] none none none)
          [(RelMeta.mk "c1".toList "ch".toList,
            RawRel.mk "A".toList "B".toList "t".toList "s".toList "X".toList [] none none none)]).confidence =
          [(RelMeta.mk "c1".toList "ch".toList,
            RawRel.mk "A".toList "B".toList "t".toList "s".toList "X".toList [] none none none)].foldl
            (fun c m => max c (confOf m))
            (confOf (RelMeta.mk "c0".toList "ch".toList,
              RawRel.mk "A".toList "B".toList "t".toList "s".toList [] [] none none none))
      ∧ (itemOf ("A".toList, "B".toList, "t".toList, "s".toList)
          (RelMeta.mk "c0".toList "ch".toList,
            RawRel.mk "A".toList "B".toList "t".toList "s".toList [] [] none none none)
          [(RelMeta.mk "c1".toList "ch".toList,
            RawRel.mk "A".toList "B".toList "t".toList "s".toList "X".toList [] none none none)]).notes =
          normName (RelMeta.mk "c0".toList "ch".toList,
            RawRel.mk "A".toList "B".toList "t".toList "s".toList [] [] none none none).2.notes) :=
  ⟨by decide,
    C4_merge_rule_on_collision []
      [(RelMeta.mk "c0".toList "ch".toList,
        RawRel.mk "A".toList "B".toList "t".toList "s".toList [] [] none none none),
       (RelMeta.mk "c1".toList "ch".toList,
        RawRel.mk "A".toList "B".toList "t".toList "s".toList "X".toList [] none none none)]
      ("A".toList, "B".toList, "t".toList, "s".toList)
      (RelMeta.mk "c0".toList "ch".toList,
        RawRel.mk "A".toList "B".toList "t".toList "s".toList [] [] none none none)
      [(RelMeta.mk "c1".toList "ch".toList,
        RawRel.mk "A".toList "B".toList "t".toList "s".toList "X".toList [] none none none)]
      (by decide)⟩

/-! ## Claim C5: relation merge idempotence under input duplication -/

/-- C5 counterexample: a single mention with a non-empty quote yields a
Relation with one evidence entry; processing the same list twice yields the
same key with TWO evidence entries (and a doubled evidence log): the
canonical Relation set is not identical, so merge is not idempotent on the
evidence list. -/
theorem C5_merge_idempotence_counterexample :
    ((dictGet? (mergeRels []
        [(RelMeta.mk "c0".toList "ch".toList,
          RawRel.mk "A".toList "B".toList "t".toList "s".toList [] "q".toList none none none)]).1
        ("A".toList, "B".toList, "t".toList, "s".toList)).map (fun it => it.evidence.length)) =
      some 1
    ∧ ((dictGet? (mergeRels []
        ([(RelMeta.mk "c0".toList "ch".toList,
           RawRel.mk "A".toList "B".toList "t".toList "s".toList [] "q".toList none none none)] ++
         [(RelMeta.mk "c0".toList "ch".toList,
           RawRel.mk "A".toList "B".toList "t".toList "s".toList [] "q".toList none none none)])).1
        ("A".toList, "B".toList, "t".toList, "s".toList)).map (fun it => it.evidence.length)) =
      some 2 := by
  decide

/-- C5 (amended): merging a mention list concatenated with itself yields
exactly the same canonical keys in the same order, and for every key the
same confidence, notes and first_seen_chunk as merging once; only the
evidence differs: each Relation's evidence list is the once-run list
concatenated with itself (before the output cap of 12 is applied), and the
evidence log is likewise doubled. -/
theorem C5_merge_idempotence_amended (amap : AliasMap) (ms : List Mention) (k : RelKey) :
    (mergeRels amap (ms ++ ms)).1.map Prod.fst = (mergeRels amap ms).1.map Prod.fst
    ∧ dictGet? (mergeRels amap (ms ++ ms)).1 k =
        (dictGet? (mergeRels amap ms).1 k).map
          (fun it => { it with evidence := it.evidence ++ it.evidence })
    ∧ (mergeRels amap (ms ++ ms)).2 = (mergeRels amap ms).2 ++ (mergeRels amap ms).2 := by
  have hfold : mergeRels amap (ms ++ ms) = ms.foldl (mergeStep amap) (mergeRels amap ms) := by
    unfold mergeRels
    rw [List.foldl_append]
  refine ⟨?_, ?_, ?_⟩
  · rw [hfold]
    exact foldl_mergeStep_keys amap ms (mergeRels amap ms)
      (fun m hm => mergeRels_lookup_mem amap ms m hm)
  · rw [mergeRels_lookup, mergeRels_lookup, keyMentions_append]
    cases hkm : keyMentions amap k ms with
    | nil => rfl
    | cons m1 rest =>
      show some (itemOf k m1 (rest ++ (m1 :: rest))) =
        some { itemOf k m1 rest with
               evidence := (itemOf k m1 rest).evidence ++ (itemOf k m1 rest).evidence }
      congr 1
      have hsplit : m1 :: (rest ++ (m1 :: rest)) = (m1 :: rest) ++ (m1 :: rest) := rfl
      simp only [itemOf, hsplit, List.filter_append, List.map_append, conf_dup]
  · rw [mergeRels_log, mergeRels_log, List.filter_append, List.map_append]

/-! ## Claim C9: first_seen_chunk frame property -/

/-- C9: (a) the Relation stored for a key carries as first_seen_chunk the
chunk_id of the earliest contributing mention in input order (none when no
mention contributes); (b) one dedupe-loop iteration over a state whose map
already holds an item for key k leaves that item unchanged except for the
confidence (raised to the max) and the evidence list (appended to when the
mention hits the key and has a non-empty quote) — in particular
first_seen_chunk and notes are never modified by a merge into an existing
key. -/
theorem C9_first_seen_set_once (amap : AliasMap) (ms : List Mention) (k : RelKey)
    (st : List (RelKey × RelItem) × List EvLogEntry) (m : Mention) (it : RelItem)
    (h : dictGet? st.1 k = some it) :
    ((dictGet? (mergeRels amap ms).1 k).map (fun r => r.first_seen_chunk)) =
      ((keyMentions amap k ms).head?.map (fun m0 => m0.1.chunk_id))
    ∧ dictGet? (mergeStep amap st m).1 k =
        some (if keyOf amap m = k
          then { it with
                 confidence := max it.confidence (confOf m)
                 evidence := it.evidence ++ (if quoteOf m = [] then [] else [evObjOf m]) }
          else it) := by
  constructor
  · rw [mergeRels_lookup]
    cases hkm : keyMentions amap k ms with
    | nil => rfl
    | cons m1 rest => rfl
  · by_cases hk : keyOf amap m = k
    · subst hk
      rw [mergeStep_lookup_self_old _ _ _ _ h, if_pos rfl]
      congr 1
      by_cases hq : quoteOf m = []
      · rw [if_pos hq, if_pos hq]
        simp
      · rw [if_neg hq, if_neg hq]
    · rw [mergeStep_lookup_other _ _ _ _ hk, if_neg hk, h]

/-- Witness for C9_first_seen_set_once: state holding one Relation for the
key, merged with a second mention of the same key carrying a quote. -/
theorem C9_first_seen_set_once_witness :
    dictGet? [(("A".toList, "B".toList, "t".toList, "s".toList),
        RelItem.mk "A".toList "B".toList "t".toList "s".toList 1 [] "c0".toList [])]
      ("A".toList, "B".toList, "t".toList, "s".toList) =
      some (RelItem.mk "A".toList "B".toList "t".toList "s".toList 1 [] "c0".toList [])
    ∧ (((dictGet? (mergeRels []
        [(RelMeta.mk "c0".toList "ch".toList,
          RawRel.mk "A".toList "B".toList "t".toList "s".toList [] [] none none none)]).1
        ("A".toList, "B".toList, "t".toList, "s".toList)).map (fun r => r.first_seen_chunk)) =
      ((keyMentions [] ("A".toList, "B".toList, "t".toList, "s".toList)
        [(RelMeta.mk "c0".toList "ch".toList,
          RawRel.mk "A".toList "B".toList "t".toList "s".toList [] [] none none none)]).head?.map
        (fun m0 => m0.1.chunk_id))
    ∧ dictGet? (mergeStep []
        ([(("A".toList, "B".toList, "t".toList, "s".toList),
           RelItem.mk "A".toList "B".toList "t".toList "s".toList 1 [] "c0".toList [])], [])
        (RelMeta.mk "c1".toList "ch".toList,
          RawRel.mk "A".toList "B".toList "t".toList "s".toList [] "q".toList none none none)).1
        ("A".toList, "B".toList, "t".toList, "s".toList) =
        some (if keyOf [] (RelMeta.mk "c1".toList "ch".toList,
            RawRel.mk "A".toList "B".toList "t".toList "s".toList [] "q".toList none none none) =
            ("A".toList, "B".toList, "t".toList, "s".toList)
          then { RelItem.mk "A".toList "B".toList "t".toList "s".toList 1 [] "c0".toList [] with
                 confidence := max (RelItem.mk "A".toList "B".toList "t".toList "s".toList
                   1 [] "c0".toList []).confidence
                   (confOf (RelMeta.mk "c1".toList "ch".toList,
                     RawRel.mk "A".toList "B".toList "t".toList "s".toList [] "q".toList none none none))
                 evidence := (RelItem.mk "A".toList "B".toList "t".toList "s".toList
                   1 [] "c0".toList []).evidence ++
                   (if quoteOf (RelMeta.mk "c1".toList "ch".toList,
                       RawRel.mk "A".toList "B".toList "t".toList "s".toList [] "q".toList none none none) = []
                    then []
                    else [evObjOf (RelMeta.mk "c1".toList "ch".toList,
                      RawRel.mk "A".toList "B".toList "t".toList "s".toList [] "q".toList none none none)]) }
          else RelItem.mk "A".toList "B".toList "t".toList "s".toList 1 [] "c0".toList [])) :=
  ⟨by decide,
    C9_first_seen_set_once []
      [(RelMeta.mk "c0".toList "ch".toList,
        RawRel.mk "A".toList "B".toList "t".toList "s".toList [] [] none none none)]
      ("A".toList, "B".toList, "t".toList, "s".toList)
      ([(("A".toList, "B".toList, "t".toList, "s".toList),
         RelItem.mk "A".toList "B".toList "t".toList "s".toList 1 [] "c0".toList [])], [])
      (RelMeta.mk "c1".toList "ch".toList,
        RawRel.mk "A".toList "B".toList "t".toList "s".toList [] "q".toList none none none)
      (RelItem.mk "A".toList "B".toList "t".toList "s".toList 1 [] "c0".toList [])
      (by decide)⟩

/-! ## Claim C6: evidence log completeness -/

set_option maxRecDepth 40000 in
/-- C6 counterexample: of two mentions, one with an empty quote and one
with a 124-character quote, only ONE evidence-log line is written (the
empty-quote mention contributes nothing), and its quote is truncated to 120
characters: the claimed "one log object per processed mention, never
truncated" fails in both respects. -/
theorem C6_evidence_log_counterexample :
    [(RelMeta.mk "c0".toList "ch".toList,
       RawRel.mk "A".toList "B".toList "t".toList "s".toList [] [] none none none),
     (RelMeta.mk "c1".toList "ch".toList,
       RawRel.mk "A".toList "B".toList "t".toList "s".toList []
         (List.replicate 124 'q') none none none)].length = 2
    ∧ (mergeRels []
        [(RelMeta.mk "c0".toList "ch".toList,
           RawRel.mk "A".toList "B".toList "t".toList "s".toList [] [] none none none),
         (RelMeta.mk "c1".toList "ch".toList,
           RawRel.mk "A".toList "B".toList "t".toList "s".toList []
             (List.replicate 124 'q') none none none)]).2.map
        (fun e => e.ev.quote.length) = [120]
    ∧ (normName (List.replicate 124 'q')).length = 124 := by
  decide

/-- C6 (amended): the evidence log contains exactly one line — carrying the
key 4-tuple, chunk_id, chapter_title, the quote truncated to 120 characters,
and the span — for every processed mention whose normalized quote is
non-empty, in input order; mentions with empty quotes contribute nothing.
For every key, the log lines for that key list exactly the full
(uncapped) evidence of the stored Relation, while the Relation record
written out caps its evidence at the first 12 entries — so evidence beyond
the cap is dropped from the Relation record but never from the log. -/
theorem C6_evidence_log_completeness (amap : AliasMap) (ms : List Mention) (k : RelKey) :
    (mergeRels amap ms).2 =
      (ms.filter (fun m => decide (quoteOf m ≠ []))).map
        (fun m => EvLogEntry.mk (keyOf amap m) (evObjOf m))
    ∧ ((mergeRels amap ms).2.filter (fun e => decide (e.key = k))).map (fun e => e.ev) =
        ((dictGet? (mergeRels amap ms).1 k).map (fun it => it.evidence)).getD []
    ∧ ((dictGet? (mergeRels amap ms).1 k).map
          (fun it => (capRelationEvidence it).evidence)).getD [] =
        (((dictGet? (mergeRels amap ms).1 k).map (fun it => it.evidence)).getD []).take 12 := by
  refine ⟨mergeRels_log amap ms, ?_, ?_⟩
  · rw [mergeRels_log, mergeRels_lookup, List.filter_map, List.map_map]
    have hcomp : ((fun e : EvLogEntry => decide (e.key = k)) ∘
        (fun m => EvLogEntry.mk (keyOf amap m) (evObjOf m))) =
        (fun m => decide (keyOf amap m = k)) := rfl
    have hcomp2 : ((fun e : EvLogEntry => e.ev) ∘
        (fun m => EvLogEntry.mk (keyOf amap m) (evObjOf m))) =
        (fun m => evObjOf m) := rfl
    rw [hcomp, hcomp2, List.filter_comm]
    show ((keyMentions amap k ms).filter (fun m => decide (quoteOf m ≠ []))).map
      (fun m => evObjOf m) = _
    cases hkm : keyMentions amap k ms with
    | nil => rfl
    | cons m1 rest => rfl
  · cases hl : dictGet? (mergeRels amap ms).1 k with
    | none => rfl
    | some it => simp [capRelationEvidence]

/-! ## Lemmas about the resumable extraction loop -/

theorem extractLoop_eq (done : List Str) (oracle : ChunkRow → JVal) :
    ∀ (rows : List ChunkRow) (acc : List ExtRecord),
      extractLoop done oracle acc rows =
        acc ++ (rows.filter (fun r => !decide (r.chunk_id ∈ done))).map
          (extractRecord oracle) := by
  intro rows
  induction rows with
  | nil => intro acc; simp [extractLoop]
  | cons r rest ih =>
    intro acc
    unfold extractLoop
    by_cases hr : r.chunk_id ∈ done
    · rw [if_pos hr, ih]
      have hfil : List.filter (fun r0 => !decide (r0.chunk_id ∈ done)) (r :: rest) =
          List.filter (fun r0 => !decide (r0.chunk_id ∈ done)) rest := by
        simp [List.filter_cons, hr]
      rw [hfil]
    · rw [if_neg hr, ih]
      have hfil : List.filter (fun r0 => !decide (r0.chunk_id ∈ done)) (r :: rest) =
          r :: List.filter (fun r0 => !decide (r0.chunk_id ∈ done)) rest := by
        simp [List.filter_cons, hr]
      rw [hfil, List.map_cons, List.append_assoc]
      rfl

/-- existingChunkIds distributes over log concatenation. -/
theorem existingChunkIds_append (l1 l2 : List ExtRecord) :
    existingChunkIds (l1 ++ l2) = existingChunkIds l1 ++ existingChunkIds l2 := by
  unfold existingChunkIds
  rw [List.filter_append, List.map_append]

/-- The chunk_ids recorded for freshly appended extraction records are
exactly the rows' chunk_ids, provided none of them is empty (the `if cid:`
guard keeps each of them). -/
theorem existingChunkIds_map_extract (oracle : ChunkRow → JVal) (l : List ChunkRow)
    (h0 : ∀ r ∈ l, r.chunk_id ≠ []) :
    existingChunkIds (l.map (extractRecord oracle)) = l.map (fun r => r.chunk_id) := by
  unfold existingChunkIds
  rw [List.filter_map]
  have hcomp : ((fun r : ExtRecord => decide (r.chunk_id ≠ [])) ∘ extractRecord oracle) =
      (fun r : ChunkRow => decide (r.chunk_id ≠ [])) := rfl
  rw [hcomp]
  have hfil : l.filter (fun r : ChunkRow => decide (r.chunk_id ≠ [])) = l := by
    rw [List.filter_eq_self]
    intro r hr
    simp [h0 r hr]
  rw [hfil, List.map_map]
  rfl

/-! ## Claim C3: idempotent resumption of the extraction step -/

/-- C3 counterexample: a chunk row whose chunk_id is the empty string is
never added to the done set, because _existing_chunk_ids records an id only
`if cid:` (truthy, extract.py line 68).  After a first complete run over
such a one-row chunk file the log holds one record, and a second complete
run re-processes the row and appends a second record: the log is not
identical and now carries a duplicate chunk_id, refuting the claim as
stated for arbitrary chunk files. -/
theorem C3_resumption_counterexample :
    (runExtract (fun _ => JVal.jnull) []
      [ChunkRow.mk [] (some 1) "c".toList (some 1) (some 0) (some 2) "ab".toList]).length = 1
    ∧ (runExtract (fun _ => JVal.jnull)
        (runExtract (fun _ => JVal.jnull) []
          [ChunkRow.mk [] (some 1) "c".toList (some 1) (some 0) (some 2) "ab".toList])
        [ChunkRow.mk [] (some 1) "c".toList (some 1) (some 0) (some 2) "ab".toList]).length
      = 2 := by
  decide

/-- C3 (amended): for chunk files whose rows all carry a non-empty chunk_id
(as every file written by the chunker does), the extraction run over an
existing log appends exactly one record per chunk row whose chunk_id is not
among the already-recorded ids, skipping all others; a second run over the
same chunk file — even with a different collaborator — appends nothing,
leaving the log identical; and when the row chunk_ids are pairwise distinct
and the starting log's recorded ids have no duplicates, the resulting log's
recorded ids have no duplicates.  A row with an empty chunk_id is never
recorded as done and is re-appended by every run. -/
theorem C3_idempotent_resumption (f g : ChunkRow → JVal) (log : List ExtRecord)
    (rows : List ChunkRow)
    (h0 : ∀ r ∈ rows, r.chunk_id ≠ [])
    (h1 : (rows.map (fun r => r.chunk_id)).Nodup)
    (h2 : (existingChunkIds log).Nodup) :
    runExtract f log rows =
      log ++ (rows.filter (fun r => !decide (r.chunk_id ∈ existingChunkIds log))).map
        (extractRecord f)
    ∧ runExtract g (runExtract f log rows) rows = runExtract f log rows
    ∧ (existingChunkIds (runExtract f log rows)).Nodup := by
  have heq : runExtract f log rows =
      log ++ (rows.filter (fun r => !decide (r.chunk_id ∈ existingChunkIds log))).map
        (extractRecord f) := extractLoop_eq _ f rows log
  have hsubfil : ∀ r ∈ rows.filter
      (fun r => !decide (r.chunk_id ∈ existingChunkIds log)), r.chunk_id ≠ [] :=
    fun r hr => h0 r (List.mem_of_mem_filter hr)
  have hcids : existingChunkIds (runExtract f log rows) =
      existingChunkIds log ++
        (rows.filter (fun r => !decide (r.chunk_id ∈ existingChunkIds log))).map
          (fun r => r.chunk_id) := by
    rw [heq, existingChunkIds_append, existingChunkIds_map_extract f _ hsubfil]
  refine ⟨heq, ?_, ?_⟩
  · have hall : ∀ r ∈ rows, r.chunk_id ∈ existingChunkIds (runExtract f log rows) := by
      intro r hr
      rw [hcids]
      by_cases hin : r.chunk_id ∈ existingChunkIds log
      · exact List.mem_append_left _ hin
      · apply List.mem_append_right
        apply List.mem_map_of_mem
        rw [List.mem_filter]
        exact ⟨hr, by simp [hin]⟩
    have houter : runExtract g (runExtract f log rows) rows =
        runExtract f log rows ++
          (rows.filter (fun r =>
            !decide (r.chunk_id ∈ existingChunkIds (runExtract f log rows)))).map
            (extractRecord g) :=
      extractLoop_eq _ g rows _
    have hfil : rows.filter
        (fun r => !decide (r.chunk_id ∈ existingChunkIds (runExtract f log rows))) = [] := by
      rw [List.filter_eq_nil_iff]
      intro r hr
      simp [hall r hr]
    rw [houter, hfil]
    simp
  · rw [hcids]
    apply List.Nodup.append h2
    · have hsub : List.Sublist
          ((rows.filter (fun r => !decide (r.chunk_id ∈ existingChunkIds log))).map
            (fun r => r.chunk_id))
          (rows.map (fun r => r.chunk_id)) :=
        List.Sublist.map _ (List.filter_sublist _)
      exact List.Nodup.sublist hsub h1
    · rw [List.disjoint_right]
      intro a ha
      obtain ⟨r, hrf, hra⟩ := List.mem_map.mp ha
      rw [List.mem_filter] at hrf
      have h3 := hrf.2
      simp only [Bool.not_eq_true', decide_eq_false_iff_not] at h3
      rw [← hra]
      exact h3

/-- Witness for C3_idempotent_resumption on a one-row chunk file with a
non-empty chunk_id and an empty starting log. -/
theorem C3_idempotent_resumption_witness :
    ((∀ r ∈ [ChunkRow.mk "000000".toList (some 1) "c".toList (some 1) (some 0) (some 2)
        "ab".toList], r.chunk_id ≠ [])
    ∧ ([ChunkRow.mk "000000".toList (some 1) "c".toList (some 1) (some 0) (some 2)
        "ab".toList].map (fun r => r.chunk_id)).Nodup
    ∧ (existingChunkIds ([] : List ExtRecord)).Nodup)
    ∧ (runExtract (fun _ => JVal.jnull) []
        [ChunkRow.mk "000000".toList (some 1) "c".toList (some 1) (some 0) (some 2)
          "ab".toList] =
        [] ++ ([ChunkRow.mk "000000".toList (some 1) "c".toList (some 1) (some 0) (some 2)
          "ab".toList].filter
            (fun r => !decide (r.chunk_id ∈ existingChunkIds ([] : List ExtRecord)))).map
          (extractRecord (fun _ => JVal.jnull))
    ∧ runExtract (fun _ => JVal.jbool true)
        (runExtract (fun _ => JVal.jnull) []
          [ChunkRow.mk "000000".toList (some 1) "c".toList (some 1) (some 0) (some 2)
            "ab".toList])
        [ChunkRow.mk "000000".toList (some 1) "c".toList (some 1) (some 0) (some 2)
          "ab".toList] =
        runExtract (fun _ => JVal.jnull) []
          [ChunkRow.mk "000000".toList (some 1) "c".toList (some 1) (some 0) (some 2)
            "ab".toList]
    ∧ (existingChunkIds (runExtract (fun _ => JVal.jnull) []
        [ChunkRow.mk "000000".toList (some 1) "c".toList (some 1) (some 0) (some 2)
          "ab".toList])).Nodup) :=
  ⟨⟨by decide, by decide, by decide⟩,
    C3_idempotent_resumption (fun _ => JVal.jnull) (fun _ => JVal.jbool true) []
      [ChunkRow.mk "000000".toList (some 1) "c".toList (some 1) (some 0) (some 2)
        "ab".toList]
      (by decide) (by decide) (by decide)⟩

/-! ## Claim C10: totality of best-effort JSON extraction -/

/-- C10: _safe_json always produces a JSON object (dict), for every parser
behavior and every input string; an input that strips to the empty string
yields the empty_response error object; when the strict parse of the whole
stripped text succeeds, its value is passed through (wrapped as _raw when it
is not a dict); and when the strict parse fails and the brace-block
extraction also fails to produce a parseable candidate, the result carries
an "_error" field — so downstream merge code always receives a dict and no
exception escapes. -/
theorem C10_safe_json_total
    (p : Str → Option JVal) (t : Str)
    (pE : Str → Option JVal) (tE : Str)
    (pS : Str → Option JVal) (tS : Str) (vS : JVal)
    (pF : Str → Option JVal) (tF : Str)
    (hE : pyStrip tE = [])
    (hS0 : pyStrip tS ≠ [])
    (hS : pS (pyStrip tS) = some vS)
    (hF1 : pyStrip tF ≠ [])
    (hF2 : pF (pyStrip tF) = none)
    (hF3 : ∀ cand, braceCandidate (pyStrip tF) = some cand → pF cand = none) :
    isObjB (safeJson p t) = true
    ∧ safeJson pE tE = JVal.jobj [("_error".toList, JVal.jstr "empty_response".toList)]
    ∧ safeJson pS tS = (if isObjB vS then vS else JVal.jobj [("_raw".toList, vS)])
    ∧ hasKeyB "_error".toList (safeJson pF tF) = true := by
  have hObjOrRaw : ∀ v : JVal, isObjB (jsonOrRaw v) = true := by
    intro v
    unfold jsonOrRaw
    by_cases hv : isObjB v = true
    · rw [if_pos hv]
      exact hv
    · rw [if_neg hv]
      rfl
  refine ⟨?_, ?_, ?_, ?_⟩
  · simp only [safeJson]
    by_cases hs : pyStrip t = []
    · rw [if_pos hs]
      rfl
    · rw [if_neg hs]
      cases hp : p (pyStrip t) with
      | some v =>
        rw [Option.map_some', Option.getD_some]
        exact hObjOrRaw v
      | none =>
        rw [Option.map_none', Option.getD_none]
        cases hb : braceCandidate (pyStrip t) with
        | some cand =>
          rw [Option.map_some', Option.getD_some]
          cases hpc : p cand with
          | some v =>
            rw [Option.map_some', Option.getD_some]
            exact hObjOrRaw v
          | none =>
            rw [Option.map_none', Option.getD_none]
            rfl
        | none =>
          rw [Option.map_none', Option.getD_none]
          rfl
  · simp only [safeJson]
    rw [if_pos hE]
  · simp only [safeJson]
    rw [if_neg hS0, hS, Option.map_some', Option.getD_some]
    rfl
  · simp only [safeJson]
    rw [if_neg hF1, hF2, Option.map_none', Option.getD_none]
    cases hb : braceCandidate (pyStrip tF) with
    | some cand =>
      rw [Option.map_some', Option.getD_some, hF3 cand hb, Option.map_none', Option.getD_none]
      rfl
    | none =>
      rw [Option.map_none', Option.getD_none]
      rfl

/-- Witness for C10_safe_json_total: a never-succeeding parser on "x" and
"cd" (no braces, so both attempts fail), the empty input, and an
always-object parser on "ab". -/
theorem C10_safe_json_total_witness :
    (pyStrip "".toList = []
    ∧ pyStrip "ab".toList ≠ []
    ∧ (fun _ : Str => some (JVal.jobj [])) (pyStrip "ab".toList) = some (JVal.jobj [])
    ∧ pyStrip "cd".toList ≠ []
    ∧ (fun _ : Str => (none : Option JVal)) (pyStrip "cd".toList) = none
    ∧ (∀ cand, braceCandidate (pyStrip "cd".toList) = some cand →
        (fun _ : Str => (none : Option JVal)) cand = none))
    ∧ (isObjB (safeJson (fun _ => none) "x".toList) = true
    ∧ safeJson (fun _ => none) "".toList =
        JVal.jobj [("_error".toList, JVal.jstr "empty_response".toList)]
    ∧ safeJson (fun _ => some (JVal.jobj [])) "ab".toList =
        (if isObjB (JVal.jobj []) then JVal.jobj []
         else JVal.jobj [("_raw".toList, JVal.jobj [])])
    ∧ hasKeyB "_error".toList (safeJson (fun _ => none) "cd".toList) = true) :=
  ⟨⟨rfl, by decide, rfl, by decide, rfl, fun _ h => Option.noConfusion h⟩,
    C10_safe_json_total (fun _ => none) "x".toList
      (fun _ => none) "".toList
      (fun _ => some (JVal.jobj [])) "ab".toList (JVal.jobj [])
      (fun _ => none) "cd".toList
      rfl (by decide) rfl (by decide) rfl (fun _ h => Option.noConfusion h)⟩

end WriteBook
